import Mathlib

/-!
Verification development for the AlphaClaw LLM provider abstraction.

This file gives a shallow embedding, in Lean, of the core of the
`alphaclaw.llm` package (canonical message model, the per-vendor adapters,
the provider registry) together with the tool-calling orchestrator described
in the design document, and proves properties of the embedded code.

Modelling conventions:
- Python strings are Lean `String`s; where character-level reasoning is
  needed we work over `List Char` (`String.toList`).
- JSON values (Python dicts/lists produced by `json.loads`) are the
  inductive type `Json` below, with objects as association lists.
- `json.loads` is an external library call; it is modelled by a parameter
  `jl : String → Option Json` (`none` models a raised `json.JSONDecodeError`).
  Likewise `json.dumps` is a parameter `jd : Json → String`.
- A vendor SDK call is modelled by a function parameter returning
  `Except String resp`: `.error exc` models the SDK raising an exception
  whose `str(...)` text is `exc`.
- Python falsiness of strings/lists/options is modelled explicitly
  (`pyOrStr`, truthiness tests on `Option String`).
-/

namespace AlphaClaw

/-- JSON values as decoded by `json.loads`: objects are association lists,
numbers are modelled as integers (no claim depends on float values). -/
inductive Json where
  | null : Json
  | bool (b : Bool) : Json
  | num (n : Int) : Json
  | str (s : String) : Json
  | arr (items : List Json) : Json
  | obj (entries : List (String × Json)) : Json
deriving Repr

/-- Association-list lookup modelling Python `dict.get` where the dict was
built by successive assignments: a later assignment is a cons to the front,
so the first match is the most recent binding. -/
def lookupAssoc {α : Type} : List (String × α) → String → Option α
  | [], _ => none
  | (k2, v) :: rest, k => if k2 = k then some v else lookupAssoc rest k

/-- Python `s.lower()` (ASCII case folding suffices for the registry). -/
def lowerStr (s : String) : String := String.mk (s.toList.map Char.toLower)

/-- Python `needle in hay` on strings: some tail of `hay` starts with `needle`. -/
def containsSub (hay needle : String) : Bool :=
  hay.toList.tails.any fun t => needle.toList.isPrefixOf t

/-- Python `x or d` for an optional string `x`: `None` and `""` are falsy. -/
def pyOrStr (o : Option String) (d : String) : String :=
  match o with
  | some s => if s = "" then d else s
  | none => d

/-- Python truthiness of an optional string (`if msg.get("content"):`). -/
def strTruthy (o : Option String) : Bool :=
  match o with
  | some s => s != ""
  | none => false

/-! ## Canonical message model (OpenAI wire shape, `alphaclaw/llm/base.py` and §6) -/

/-- Value of the `arguments` field of a canonical tool call: the adapters
accept either a JSON-encoded string or an already-structured object
(`json.loads(args_str) if isinstance(args_str, str) else args_str`). -/
inductive ArgVal where
  | str (s : String) : ArgVal
  | json (j : Json) : ArgVal
deriving Repr

/-- The `function` field of a canonical tool call. -/
structure MsgFn where
  name : String
  arguments : ArgVal
deriving Repr

/-- One entry of an assistant message's `tool_calls` array. -/
structure MsgToolCall where
  id : String
  function : MsgFn
deriving Repr

/-- A canonical conversation message. `other` models a dict whose `role` is
none of the four canonical roles (the converters skip it). -/
inductive Msg where
  | system (content : String) : Msg
  | user (content : String) : Msg
  | assistant (content : Option String) (tool_calls : List MsgToolCall) : Msg
  | tool (tool_call_id : String) (content : String) : Msg
  | other : Msg
deriving Repr

/-- The `tool_calls` list of a message (empty for non-assistant roles). -/
def Msg.toolCallsOf : Msg → List MsgToolCall
  | .assistant _ tcs => tcs
  | _ => []

/-- Role test used to describe runs of consecutive tool messages. -/
def Msg.isTool : Msg → Bool
  | .tool _ _ => true
  | _ => false

/-! ## Normalized results (`ToolCall`, `LLMResult`, `LLMError` from `base.py`) -/

/-- `ToolCall` dataclass: a tool call requested by the LLM, `arguments` a JSON string. -/
structure ToolCall where
  id : String
  name : String
  arguments : String
deriving DecidableEq, Repr

/-- Token usage dictionary (the three keys every adapter fills). -/
structure Usage where
  prompt_tokens : Nat
  completion_tokens : Nat
  total_tokens : Nat
deriving DecidableEq, Repr

/-- `LLMResult` dataclass: normalized result from any provider
(`raw` is vendor-opaque and not modelled; `usage = none` models the empty dict). -/
structure LLMResult where
  content : String
  tool_calls : List ToolCall
  finish_reason : String
  usage : Option Usage
deriving DecidableEq, Repr

/-- Payload of an `LLMError` raised by an adapter (`raw` not modelled). -/
structure LLMErrorData where
  message : String
  provider : String
  retryable : Bool
deriving DecidableEq, Repr

/-- Outcome of a `complete()` call, distinguishing a wrapped `LLMError` from a
raw exception escaping the adapter: `jsonDecode s` models an uncaught
`json.JSONDecodeError` raised while decoding the string `s`, and `indexErr`
models an uncaught `IndexError` (`response.choices[0]` on an empty list). -/
inductive AdapterErr where
  | jsonDecode (s : String) : AdapterErr
  | llm (e : LLMErrorData) : AdapterErr
  | indexErr : AdapterErr
deriving DecidableEq, Repr

/-- Decode a canonical `arguments` value the way the adapters do:
`json.loads(args) if isinstance(args, str) else args`. An undecodable
string raises, modelled by `.error` carrying the offending string. -/
def decodeArgs (jl : String → Option Json) : ArgVal → Except String Json
  | .str s =>
    match jl s with
    | some j => .ok j
    | none => .error s
  | .json j => .ok j

/-! ## Gemini tool-schema sanitization (`google_._strip_defaults`) -/

mutual

/-- `_strip_defaults` from `google_.py`: recursively remove `default` keys
from a JSON-schema dict. The loop body is split into `strip_defaults`
(the dict loop), `stripItem` (one value) and `stripArr` (the list
comprehension, which recurses only into elements that are dicts). -/
def strip_defaults : List (String × Json) → List (String × Json)
  | [] => []
  | (k, v) :: rest =>
    if k = "default" then strip_defaults rest
    else (k, stripItem v) :: strip_defaults rest

/-- Transformation `_strip_defaults` applies to one dict value. -/
def stripItem : Json → Json
  | .obj es => .obj (strip_defaults es)
  | .arr xs => .arr (stripArr xs)
  | v => v

/-- The list comprehension inside `_strip_defaults`: strip elements that are
dicts, keep every other element (including nested lists) unchanged. -/
def stripArr : List Json → List Json
  | [] => []
  | x :: xs =>
    (match x with
      | Json.obj es => Json.obj (strip_defaults es)
      | other => other) :: stripArr xs

end

/-! ## Anthropic adapter (`anthropic_.py`) -/

/-- Content block of an Anthropic request message. -/
inductive ABlock where
  | text (s : String) : ABlock
  | toolUse (id : String) (name : String) (input : Json) : ABlock
  | toolResult (tool_use_id : String) (content : String) : ABlock
deriving Repr

/-- Content of an Anthropic request message: a plain string (user turns) or
a list of content blocks (assistant turns and coalesced tool results). -/
inductive AContent where
  | str (s : String) : AContent
  | blocks (bs : List ABlock) : AContent
deriving Repr

/-- One message in Anthropic request format. -/
structure AMsg where
  role : String
  content : AContent
deriving Repr

/-- Tool-use blocks of an assistant turn, in `tool_calls` order:
`json.loads` each string `arguments` (uncaught failure propagates). -/
def aToolUseBlocks (jl : String → Option Json) : List MsgToolCall → Except String (List ABlock)
  | [] => .ok []
  | tc :: rest =>
    match decodeArgs jl tc.function.arguments with
    | .error e => .error e
    | .ok j =>
      match aToolUseBlocks jl rest with
      | .error e => .error e
      | .ok bs => .ok (ABlock.toolUse tc.id tc.function.name j :: bs)

/-- Text block of an assistant turn (`if msg.get("content"):` — a missing or
falsy content yields no text block). -/
def aTextBlocks (c : Option String) : List ABlock :=
  match c with
  | some s => if s = "" then [] else [ABlock.text s]
  | none => []

mutual

/-- Body of `anthropic_._convert_messages`: walk the canonical messages,
returning the collected system parts and the converted messages. The
`tool` branch hands off to `a_collect_tools`, which models the inner
`while` loop that collects a run of consecutive tool messages. -/
def a_convert_core (jl : String → Option Json) (msgs : List Msg) :
    Except String (List String × List AMsg) :=
  match msgs with
  | [] => .ok ([], [])
  | .system c :: rest => (a_convert_core jl rest).map fun r => (c :: r.1, r.2)
  | .user c :: rest =>
    (a_convert_core jl rest).map fun r => (r.1, AMsg.mk "user" (AContent.str c) :: r.2)
  | .assistant c tcs :: rest =>
    Except.bind (aToolUseBlocks jl tcs) fun tb =>
      (a_convert_core jl rest).map fun r =>
        (r.1, AMsg.mk "assistant" (AContent.blocks (aTextBlocks c ++ tb)) :: r.2)
  | .tool tid c :: rest => a_collect_tools jl [ABlock.toolResult tid c] rest
  | .other :: rest => a_convert_core jl rest
termination_by (msgs.length, 0)

/-- Inner `while` loop of the `tool` branch: accumulate `tool_result` blocks
for the remaining consecutive tool messages, then emit one `user` message. -/
def a_collect_tools (jl : String → Option Json) (acc : List ABlock) (msgs : List Msg) :
    Except String (List String × List AMsg) :=
  match msgs with
  | .tool tid c :: rest => a_collect_tools jl (acc ++ [ABlock.toolResult tid c]) rest
  | rest =>
    (a_convert_core jl rest).map fun r => (r.1, AMsg.mk "user" (AContent.blocks acc) :: r.2)
termination_by (msgs.length, 1)

end

/-- `anthropic_._convert_messages`: returns `(system_text, anthropic_messages)`
with the system parts joined by blank lines. -/
def a_convert_messages (jl : String → Option Json) (msgs : List Msg) :
    Except String (String × List AMsg) :=
  (a_convert_core jl msgs).map fun r => (String.intercalate "\n\n" r.1, r.2)

/-- Content block of an Anthropic response (`other` models block types the
parser ignores). -/
inductive ARespBlock where
  | text (s : String) : ARespBlock
  | toolUse (id : String) (name : String) (input : Json) : ARespBlock
  | other : ARespBlock
deriving Repr

/-- Anthropic usage object (always present on a response). -/
structure AUsage where
  input_tokens : Nat
  output_tokens : Nat
deriving Repr

/-- Anthropic response message. -/
structure AResp where
  content : List ARespBlock
  stop_reason : Option String
  usage : AUsage
deriving Repr

/-- `anthropic_._parse_response`: collect text and tool-use blocks in order,
map stop reasons (`tool_use → tool_calls`, `max_tokens → length`, else `stop`). -/
def a_parse_response (jd : Json → String) (r : AResp) : LLMResult :=
  let texts := r.content.filterMap fun b =>
    match b with
    | .text s => some s
    | _ => none
  let tcs := r.content.filterMap fun b =>
    match b with
    | .toolUse i n inp => some (ToolCall.mk i n (jd inp))
    | _ => none
  let fr :=
    if r.stop_reason = some "tool_use" then "tool_calls"
    else if r.stop_reason = some "max_tokens" then "length"
    else "stop"
  { content := String.intercalate "\n" texts
    tool_calls := tcs
    finish_reason := fr
    usage := some ⟨r.usage.input_tokens, r.usage.output_tokens,
      r.usage.input_tokens + r.usage.output_tokens⟩ }

/-- `AnthropicProvider.complete`: conversion runs before the `try`, the vendor
call inside it (any exception wrapped into `LLMError` with provider
`"anthropic"` and the substring heuristic), parsing after it. -/
def anthropic_complete (jl : String → Option Json) (jd : Json → String)
    (vendor : String → List AMsg → Except String AResp) (msgs : List Msg) :
    Except AdapterErr LLMResult :=
  match a_convert_messages jl msgs with
  | .error s => .error (.jsonDecode s)
  | .ok (sys, amsgs) =>
    match vendor sys amsgs with
    | .error exc => .error (.llm ⟨exc, "anthropic",
        containsSub (lowerStr exc) "rate" || containsSub (lowerStr exc) "overloaded"⟩)
    | .ok resp => .ok (a_parse_response jd resp)

/-! ## Gemini adapter (`google_.py`) -/

/-- Part of a Gemini request content (`types.Part` constructors used). -/
inductive GPartOut where
  | text (s : String) : GPartOut
  | functionCall (name : String) (args : Json) : GPartOut
  | functionResponse (name : String) (response : Json) : GPartOut
deriving Repr

/-- One Gemini request content (`types.Content`). -/
structure GContent where
  role : String
  parts : List GPartOut
deriving Repr

/-- Tool-result payload used by the Gemini `tool` branch (and, identically,
by the Bedrock one): `json.loads(content_str)`, with a decode failure caught
and wrapped as `{"result": content_str}`. -/
def toolOutput (jl : String → Option Json) (c : String) : Json :=
  match jl c with
  | some j => j
  | none => Json.obj [("result", Json.str c)]

/-- Function-call parts of an assistant turn for Gemini, threading the
`fn_names` dict (a cons-front association list, most recent binding first).
Each call decodes its arguments (uncaught failure propagates) and then
records `fn_names[tc.id] = name`, exactly in the source's order. -/
def gAssistantParts (jl : String → Option Json) (fns : List (String × String)) :
    List MsgToolCall → Except String (List GPartOut × List (String × String))
  | [] => .ok ([], fns)
  | tc :: rest =>
    match decodeArgs jl tc.function.arguments with
    | .error e => .error e
    | .ok j =>
      match gAssistantParts jl ((tc.id, tc.function.name) :: fns) rest with
      | .error e => .error e
      | .ok r => .ok (GPartOut.functionCall tc.function.name j :: r.1, r.2)

/-- Body of `google_._convert_messages`, threading the `fn_names` dict and
returning it together with the system parts and converted contents. -/
def g_convert_core (jl : String → Option Json) (fns : List (String × String)) :
    List Msg → Except String (List String × List GContent × List (String × String))
  | [] => .ok ([], [], fns)
  | .system c :: rest =>
    (g_convert_core jl fns rest).map fun r => (c :: r.1, r.2)
  | .user c :: rest =>
    (g_convert_core jl fns rest).map fun r =>
      (r.1, GContent.mk "user" [GPartOut.text c] :: r.2.1, r.2.2)
  | .assistant c tcs :: rest =>
    match gAssistantParts jl fns tcs with
    | .error e => .error e
    | .ok p =>
      match g_convert_core jl p.2 rest with
      | .error e => .error e
      | .ok r =>
        .ok (r.1, GContent.mk "model"
          ((match c with
            | some s => if s = "" then [] else [GPartOut.text s]
            | none => []) ++ p.1) :: r.2.1, r.2.2)
  | .tool tid c :: rest =>
    let fn_name := (lookupAssoc fns tid).getD "unknown"
    (g_convert_core jl fns rest).map fun r =>
      (r.1, GContent.mk "user" [GPartOut.functionResponse fn_name (toolOutput jl c)] :: r.2.1,
        r.2.2)
  | .other :: rest => g_convert_core jl fns rest

/-- `google_._convert_messages`: returns `(system_text, contents)`. -/
def g_convert_messages (jl : String → Option Json) (msgs : List Msg) :
    Except String (String × List GContent) :=
  (g_convert_core jl [] msgs).map fun r => (String.intercalate "\n\n" r.1, r.2.1)

/-- Function call inside a Gemini response part (`args` is an optional dict). -/
structure GFnCall where
  name : String
  args : Option (List (String × Json))
deriving Repr

/-- Part of a Gemini response candidate: the SDK object has independent
`text` and `function_call` attributes, inspected with `if part.text: ...
elif part.function_call:`. -/
structure GPartIn where
  text : Option String
  function_call : Option GFnCall
deriving Repr

/-- Gemini response candidate; `parts = []` also covers a candidate whose
`content` or `content.parts` is `None` (the parser then collects nothing). -/
structure GCand where
  parts : List GPartIn
  finish_reason : Option String
deriving Repr

/-- Gemini usage metadata (attributes may be `None`, read with `or 0`). -/
structure GUsage where
  prompt_token_count : Option Nat
  candidates_token_count : Option Nat
  total_token_count : Option Nat
deriving Repr

/-- Gemini response. -/
structure GResp where
  candidates : List GCand
  usage_metadata : Option GUsage
deriving Repr

/-- Synthesized tool-call id for a Gemini function call. The source draws
`uuid.uuid4().hex[:24]` for each call; the draw is modelled by a
deterministic fresh-id generator indexed by the call's position. -/
def gGenId (n : Nat) : String := "call-" ++ toString n

/-- One iteration of the Gemini part loop: `if part.text: ... elif
part.function_call: ...` (a part with falsy text and a function call takes
the second branch; a part with neither contributes nothing). -/
def gPartStep (p : GPartIn) : Option (String ⊕ GFnCall) :=
  match p.text with
  | some s => if s ≠ "" then some (Sum.inl s) else p.function_call.map Sum.inr
  | none => p.function_call.map Sum.inr

/-- The part loop of `google_._parse_response`: collect text parts and tool
calls in order, numbering the synthesized ids. -/
def gCollect (jd : Json → String) : List GPartIn → Nat → List String × List ToolCall
  | [], _ => ([], [])
  | p :: rest, n =>
    match gPartStep p with
    | some (Sum.inl s) =>
      let r := gCollect jd rest n
      (s :: r.1, r.2)
    | some (Sum.inr fc) =>
      let r := gCollect jd rest (n + 1)
      (r.1, ToolCall.mk (gGenId n) fc.name (jd (Json.obj (fc.args.getD []))) :: r.2)
    | none => gCollect jd rest n

/-- `google_._parse_response`: parts of the first candidate are collected;
the presence of any tool call forces `finish_reason = "tool_calls"`,
otherwise the candidate's `MAX_TOKENS` marker maps to `"length"`, else `"stop"`. -/
def g_parse_response (jd : Json → String) (r : GResp) : LLMResult :=
  let parts :=
    match r.candidates with
    | [] => []
    | c :: _ => c.parts
  let collected := gCollect jd parts 0
  let fr :=
    if collected.2 ≠ [] then "tool_calls"
    else
      match r.candidates with
      | [] => "stop"
      | c :: _ =>
        match c.finish_reason with
        | some s => if s = "MAX_TOKENS" then "length" else "stop"
        | none => "stop"
  { content := String.intercalate "\n" collected.1
    tool_calls := collected.2
    finish_reason := fr
    usage := r.usage_metadata.map fun u =>
      ⟨u.prompt_token_count.getD 0, u.candidates_token_count.getD 0,
        u.total_token_count.getD 0⟩ }

/-- `GeminiProvider.complete`: conversion before the `try`, the vendor call
inside it (wrapped with provider `"gemini"` and the quota/rate heuristic),
parsing after it. -/
def gemini_complete (jl : String → Option Json) (jd : Json → String)
    (vendor : String → List GContent → Except String GResp) (msgs : List Msg) :
    Except AdapterErr LLMResult :=
  match g_convert_messages jl msgs with
  | .error s => .error (.jsonDecode s)
  | .ok (sys, contents) =>
    match vendor sys contents with
    | .error exc => .error (.llm ⟨exc, "gemini",
        containsSub (lowerStr exc) "quota" || containsSub (lowerStr exc) "rate"⟩)
    | .ok resp => .ok (g_parse_response jd resp)

/-! ## Bedrock adapter (`bedrock_.py`) -/

/-- Content block of a Bedrock Converse request message. `toolResult tid j`
models `{"toolResult": {"toolUseId": tid, "content": [{"json": j}]}}`. -/
inductive BBlock where
  | text (s : String) : BBlock
  | toolUse (toolUseId : String) (name : String) (input : Json) : BBlock
  | toolResult (toolUseId : String) (content : Json) : BBlock
deriving Repr

/-- One Bedrock Converse request message. -/
structure BMsg where
  role : String
  content : List BBlock
deriving Repr

/-- Tool-use blocks of an assistant turn for Bedrock, in `tool_calls` order
(uncaught `json.loads` failure propagates). -/
def bToolUses (jl : String → Option Json) : List MsgToolCall → Except String (List BBlock)
  | [] => .ok []
  | tc :: rest =>
    match decodeArgs jl tc.function.arguments with
    | .error e => .error e
    | .ok j =>
      match bToolUses jl rest with
      | .error e => .error e
      | .ok bs => .ok (BBlock.toolUse tc.id tc.function.name j :: bs)

/-- Body of `bedrock_._convert_messages`: system blocks are collected as
their text, each tool message becomes its own Converse user message with a
`toolResult` block. -/
def b_convert_core (jl : String → Option Json) : List Msg → Except String (List String × List BMsg)
  | [] => .ok ([], [])
  | .system c :: rest => (b_convert_core jl rest).map fun r => (c :: r.1, r.2)
  | .user c :: rest =>
    (b_convert_core jl rest).map fun r => (r.1, BMsg.mk "user" [BBlock.text c] :: r.2)
  | .assistant c tcs :: rest =>
    match bToolUses jl tcs with
    | .error e => .error e
    | .ok tus =>
      match b_convert_core jl rest with
      | .error e => .error e
      | .ok r =>
        .ok (r.1, BMsg.mk "assistant"
          ((match c with
            | some s => if s = "" then [] else [BBlock.text s]
            | none => []) ++ tus) :: r.2)
  | .tool tid c :: rest =>
    (b_convert_core jl rest).map fun r =>
      (r.1, BMsg.mk "user" [BBlock.toolResult tid (toolOutput jl c)] :: r.2)
  | .other :: rest => b_convert_core jl rest

/-- `bedrock_._convert_messages`: returns `(system_blocks, converse_messages)`
(a system block `{"text": c}` is modelled by its text `c`). -/
def b_convert_messages (jl : String → Option Json) (msgs : List Msg) :
    Except String (List String × List BMsg) :=
  b_convert_core jl msgs

/-- Output content block of a Bedrock Converse response; `input = none`
models a `toolUse` dict without an `input` key (`tu.get("input", {})`). -/
inductive BRespBlock where
  | text (s : String) : BRespBlock
  | toolUse (toolUseId : String) (name : String) (input : Option Json) : BRespBlock
deriving Repr

/-- Bedrock usage dict (`usage.get(..., 0)`); an empty or missing `usage`
dict is `none` on `BResp`. -/
structure BUsage where
  inputTokens : Nat
  outputTokens : Nat
deriving Repr

/-- Bedrock Converse response (the nested `output.message.content` list is
modelled directly; missing levels give the empty list). -/
structure BResp where
  content : List BRespBlock
  stopReason : Option String
  usage : Option BUsage
deriving Repr

/-- `bedrock_._parse_response`: collect text and toolUse blocks in order,
map `stopReason` (`tool_use → tool_calls`, `max_tokens → length`, else `stop`). -/
def b_parse_response (jd : Json → String) (r : BResp) : LLMResult :=
  let texts := r.content.filterMap fun b =>
    match b with
    | .text s => some s
    | _ => none
  let tcs := r.content.filterMap fun b =>
    match b with
    | .toolUse i n inp => some (ToolCall.mk i n (jd (inp.getD (Json.obj []))))
    | _ => none
  let sr := r.stopReason.getD "end_turn"
  let fr :=
    if sr = "tool_use" then "tool_calls"
    else if sr = "max_tokens" then "length"
    else "stop"
  { content := String.intercalate "\n" texts
    tool_calls := tcs
    finish_reason := fr
    usage := r.usage.map fun u => ⟨u.inputTokens, u.outputTokens, u.inputTokens + u.outputTokens⟩ }

/-- `BedrockProvider.complete`: conversion before the `try`, the executor-run
vendor call inside it (wrapped with provider `"bedrock"` and the throttle
heuristic), parsing after it. -/
def bedrock_complete (jl : String → Option Json) (jd : Json → String)
    (vendor : List String → List BMsg → Except String BResp) (msgs : List Msg) :
    Except AdapterErr LLMResult :=
  match b_convert_messages jl msgs with
  | .error s => .error (.jsonDecode s)
  | .ok (sys, bmsgs) =>
    match vendor sys bmsgs with
    | .error exc => .error (.llm ⟨exc, "bedrock", containsSub (lowerStr exc) "throttl"⟩)
    | .ok resp => .ok (b_parse_response jd resp)

/-! ## OpenAI-compatible adapter (`openai_.py`), Mistral (`mistral_.py`),
LiteLLM fallback (`litellm_.py`). These pass canonical messages through
unchanged, so `complete` has no conversion step. -/

/-- The `function` object of a tool call in an OpenAI-style response. -/
structure OFn where
  name : String
  arguments : Option String
deriving Repr

/-- One tool call in an OpenAI-style response message. -/
structure OTc where
  id : String
  function : OFn
deriving Repr

/-- OpenAI-style response message. -/
structure OMsgOut where
  content : Option String
  tool_calls : Option (List OTc)
deriving Repr

/-- OpenAI-style response choice. -/
structure OChoice where
  message : OMsgOut
  finish_reason : Option String
deriving Repr

/-- OpenAI-style usage object (fields may be `None`, read with `or 0`). -/
structure OUsage where
  prompt_tokens : Option Nat
  completion_tokens : Option Nat
  total_tokens : Option Nat
deriving Repr

/-- OpenAI-style response. -/
structure OResp where
  choices : List OChoice
  usage : Option OUsage
deriving Repr

/-- The decode of `OpenAIProvider.complete` (lines after the vendor call),
applied to `choice = response.choices[0]`: the vendor's `finish_reason` is
used directly (`or "stop"`). -/
def o_decode_choice (c : OChoice) (usage : Option OUsage) : LLMResult :=
  let tcs :=
    match c.message.tool_calls with
    | some l => l.map fun tc =>
        ToolCall.mk tc.id tc.function.name (pyOrStr tc.function.arguments "\x7b\x7d")
    | none => []
  { content := pyOrStr c.message.content ""
    tool_calls := tcs
    finish_reason := pyOrStr c.finish_reason "stop"
    usage := usage.map fun u =>
      ⟨u.prompt_tokens.getD 0, u.completion_tokens.getD 0, u.total_tokens.getD 0⟩ }

/-- `OpenAIProvider.complete` for the sub-provider `pfx` (openai, azure,
groq, together, ollama, vllm): the vendor call is wrapped with the adapter's
own `self._prefix` and the rate heuristic; `response.choices[0]` on an empty
choice list is an uncaught `IndexError`. -/
def openai_complete (pfx : String) (vendor : List Msg → Except String OResp)
    (msgs : List Msg) : Except AdapterErr LLMResult :=
  match vendor msgs with
  | .error exc => .error (.llm ⟨exc, pfx, containsSub (lowerStr exc) "rate"⟩)
  | .ok r =>
    match r.choices with
    | [] => .error .indexErr
    | c :: _ => .ok (o_decode_choice c r.usage)

/-- `LiteLLMProvider.complete`: identical decode with provider `"litellm"`. -/
def litellm_complete (vendor : List Msg → Except String OResp) (msgs : List Msg) :
    Except AdapterErr LLMResult :=
  match vendor msgs with
  | .error exc => .error (.llm ⟨exc, "litellm", containsSub (lowerStr exc) "rate"⟩)
  | .ok r =>
    match r.choices with
    | [] => .error .indexErr
    | c :: _ => .ok (o_decode_choice c r.usage)

/-- Mistral response message: `arguments` may be a string or structured
(`... if isinstance(tc.function.arguments, str) else "{}"`). -/
structure MRespFn where
  name : String
  arguments : ArgVal
deriving Repr

/-- One tool call in a Mistral response message. -/
structure MRespTc where
  id : String
  function : MRespFn
deriving Repr

/-- Mistral response message. -/
structure MMsgOut where
  content : Option String
  tool_calls : Option (List MRespTc)
deriving Repr

/-- Mistral response choice. -/
structure MChoice where
  message : MMsgOut
  finish_reason : Option String
deriving Repr

/-- Mistral response. -/
structure MResp where
  choices : List MChoice
  usage : Option OUsage
deriving Repr

/-- `MistralProvider.complete`: the vendor call is wrapped with provider
`"mistral"` and the rate heuristic; an empty `choices` list raises
`LLMError("Empty response from Mistral")` (not an `IndexError`). -/
def mistral_complete (vendor : List Msg → Except String MResp) (msgs : List Msg) :
    Except AdapterErr LLMResult :=
  match vendor msgs with
  | .error exc => .error (.llm ⟨exc, "mistral", containsSub (lowerStr exc) "rate"⟩)
  | .ok r =>
    match r.choices with
    | [] => .error (.llm ⟨"Empty response from Mistral", "mistral", false⟩)
    | c :: _ =>
      let tcs :=
        match c.message.tool_calls with
        | some l => l.map fun tc =>
            ToolCall.mk tc.id tc.function.name
              (match tc.function.arguments with
                | .str s => s
                | .json _ => "\x7b\x7d")
        | none => []
      .ok { content := pyOrStr c.message.content ""
            tool_calls := tcs
            finish_reason := pyOrStr c.finish_reason "stop"
            usage := r.usage.map fun u =>
              ⟨u.prompt_tokens.getD 0, u.completion_tokens.getD 0, u.total_tokens.getD 0⟩ }

/-! ## Provider registry (`registry.py`) -/

/-- `_PROVIDER_MAP`: prefix → (module path, class name). -/
def PROVIDER_MAP : List (String × String × String) :=
  [("openai", "openai_", "OpenAIProvider"),
   ("azure", "openai_", "OpenAIProvider"),
   ("groq", "openai_", "OpenAIProvider"),
   ("together", "openai_", "OpenAIProvider"),
   ("ollama", "openai_", "OpenAIProvider"),
   ("vllm", "openai_", "OpenAIProvider"),
   ("anthropic", "anthropic_", "AnthropicProvider"),
   ("gemini", "google_", "GeminiProvider"),
   ("google", "google_", "GeminiProvider"),
   ("mistral", "mistral_", "MistralProvider"),
   ("bedrock", "bedrock_", "BedrockProvider")]

/-- A constructed provider object: `instId` is a fresh allocation number
(object identity), `className` the adapter class, `pfx` the `prefix=`
argument passed to the constructor. -/
structure ProviderInstance where
  instId : Nat
  className : String
  pfx : String
deriving DecidableEq, Repr

/-- The module-level mutable state of `registry.py`: the `_cache` dict
(cons-front association list) and the next fresh object id. -/
structure RegistryState where
  cache : List (String × ProviderInstance)
  nextId : Nat
deriving DecidableEq, Repr

/-- The empty registry state (process start, or after `clear_cache()`). -/
def RegistryState.empty : RegistryState := ⟨[], 0⟩

/-- Helper splitting a character list at the first `'/'`
(the two interesting components of Python `str.partition("/")`). -/
def splitAtFirstSlash : List Char → List Char × List Char
  | [] => ([], [])
  | c :: cs =>
    if c = '/' then ([], cs)
    else
      let r := splitAtFirstSlash cs
      (c :: r.1, r.2)

/-- `parse_model_string`: split `"prefix/model-name"` on the first `/`,
lower-casing the prefix; without a `/`, return `("", model)`. -/
def parse_model_string (model : String) : String × String :=
  if '/' ∈ model.toList then
    let r := splitAtFirstSlash model.toList
    (lowerStr (String.mk r.1), String.mk r.2)
  else ("", model)

/-- `_load_litellm`: return the cached fallback provider or construct and
cache it under the reserved key `"_litellm"` (the constructor's default
`prefix` is `"litellm"`). -/
def load_litellm (st : RegistryState) : ProviderInstance × RegistryState :=
  match lookupAssoc st.cache "_litellm" with
  | some i => (i, st)
  | none =>
    let i : ProviderInstance := ⟨st.nextId, "LiteLLMProvider", "litellm"⟩
    (i, ⟨("_litellm", i) :: st.cache, st.nextId + 1⟩)

/-- `_load_provider`: cached instance if present; unknown prefix falls back
to LiteLLM; otherwise construct `cls(prefix=pfx)` and cache it under `pfx`.
The dynamic import is modelled as succeeding (the SDK packages exist); the
`ImportError` re-raise path is not modelled. -/
def load_provider (st : RegistryState) (pfx : String) : ProviderInstance × RegistryState :=
  match lookupAssoc st.cache pfx with
  | some i => (i, st)
  | none =>
    match lookupAssoc PROVIDER_MAP pfx with
    | none => load_litellm st
    | some mc =>
      let i : ProviderInstance := ⟨st.nextId, mc.2, pfx⟩
      (i, ⟨(pfx, i) :: st.cache, st.nextId + 1⟩)

/-- `get_provider`: parse the model string; an empty prefix goes to LiteLLM
with the full string, a known prefix to its provider with the stripped id,
an unknown prefix to LiteLLM with the full string. -/
def get_provider (st : RegistryState) (model : String) :
    (ProviderInstance × String) × RegistryState :=
  let p := parse_model_string model
  if p.1 = "" then
    let r := load_litellm st
    ((r.1, model), r.2)
  else if (lookupAssoc PROVIDER_MAP p.1).isSome then
    let r := load_provider st p.1
    ((r.1, p.2), r.2)
  else
    let r := load_litellm st
    ((r.1, model), r.2)

/-- Well-formedness of a registry state reachable by the registry's own
operations: every cached instance is either the fallback (keyed by the
reserved `"_litellm"`, constructed with the default `prefix="litellm"`) or
the instance of a known prefix's mapped class, constructed with that prefix. -/
def RegistryState.WF (st : RegistryState) : Prop :=
  ∀ k i, lookupAssoc st.cache k = some i →
    (k = "_litellm" ∧ i.className = "LiteLLMProvider" ∧ i.pfx = "litellm") ∨
    (∃ mc, lookupAssoc PROVIDER_MAP k = some mc ∧ i.className = mc.2 ∧ i.pfx = k)

/-! ## Tool-calling orchestrator (§4.4 of the design document) -/

/-- Modelled from the spec: the fixed user-facing fallback string returned
when the round budget is exhausted. The repository's current agent loop
(`agent/loop.py`) delegates the round loop to an external agent library, so
the orchestrator itself is absent from the sources; only the phrase quoted
by the design document is modelled. -/
def fallbackMessage : String := "having trouble completing this analysis"

/-- Modelled from the spec: the fixed maximum number of orchestration rounds. -/
def MAX_ROUNDS : Nat := 10

/-- Modelled from the spec: one `run()` invocation of the orchestrator,
with `fuel` rounds remaining. Each round calls `complete` on the
accumulated message list; a result without tool calls appends the final
assistant text and stops, otherwise the assistant message carrying the
tool-call requests and, in request order, one `tool` message per executed
call are appended and the loop continues. Exhausted fuel returns the
fallback message with the messages accumulated so far. The third component
of the result counts the rounds executed. -/
def orch_run_aux (completer : List Msg → LLMResult) (executor : String → String → String) :
    Nat → List Msg → String × List Msg × Nat
  | 0, msgs => (fallbackMessage, msgs, 0)
  | fuel + 1, msgs =>
    let r := completer msgs
    if r.tool_calls = [] then
      (r.content, msgs ++ [Msg.assistant (some r.content) []], 1)
    else
      let amsg := Msg.assistant (if r.content = "" then none else some r.content)
        (r.tool_calls.map fun tc => MsgToolCall.mk tc.id (MsgFn.mk tc.name (ArgVal.str tc.arguments)))
      let toolMsgs := r.tool_calls.map fun tc =>
        Msg.tool tc.id (executor tc.name tc.arguments)
      let rec2 := orch_run_aux completer executor fuel (msgs ++ amsg :: toolMsgs)
      (rec2.1, rec2.2.1, rec2.2.2 + 1)

/-- Modelled from the spec: `run()` starts from the instruction and the user
message and executes at most `MAX_ROUNDS` rounds. -/
def orch_run (completer : List Msg → LLMResult) (executor : String → String → String)
    (instruction user_message : String) : String × List Msg × Nat :=
  orch_run_aux completer executor MAX_ROUNDS [Msg.system instruction, Msg.user user_message]

/-! ## Auxiliary predicates and concrete inputs used by the theorems -/

/-- Holds when the last message of a list (if any) is not a `tool` message,
so that a maximal run of tool messages cannot continue past the list. -/
def aLastNotTool (l : List Msg) : Bool :=
  match l.getLast? with
  | some m => !m.isTool
  | none => true

/-- Holds when the first message of a list (if any) is not a `tool` message. -/
def aHeadNotTool (l : List Msg) : Bool :=
  match l.head? with
  | some m => !m.isTool
  | none => true

/-- The `tool_result` block the Anthropic converter emits for one canonical
tool message (junk on other roles; only applied to tool messages). -/
def toolResultBlock : Msg → ABlock
  | .tool tid c => ABlock.toolResult tid c
  | _ => ABlock.text ""

/-- Some assistant message in the list carries a tool call whose `arguments`
is a string `json.loads` cannot decode. -/
def hasBadArgs (jl : String → Option Json) (msgs : List Msg) : Prop :=
  ∃ m ∈ msgs, ∃ tc ∈ m.toolCallsOf, ∃ s,
    tc.function.arguments = ArgVal.str s ∧ jl s = none

mutual

/-- No `default` key occurs in the dict, in its dict values (recursively) or
in dict elements of its list values — the positions `_strip_defaults`
actually visits. -/
def cleanDict : List (String × Json) → Bool
  | [] => true
  | (k, v) :: rest => decide (k ≠ "default") && cleanItem v && cleanDict rest

/-- Value-level part of `cleanDict`. -/
def cleanItem : Json → Bool
  | .obj es => cleanDict es
  | .arr xs => cleanArr xs
  | _ => true

/-- Element-level part of `cleanDict`: only dict elements are inspected. -/
def cleanArr : List Json → Bool
  | [] => true
  | x :: xs =>
    (match x with
      | Json.obj es => cleanDict es
      | _ => true) && cleanArr xs

end

mutual

/-- A key named `default` occurs somewhere in the dict, at any nesting depth,
descending through both objects and arrays (including arrays inside arrays). -/
def hasDefaultDeepDict : List (String × Json) → Bool
  | [] => false
  | (k, v) :: rest => decide (k = "default") || hasDefaultDeepVal v || hasDefaultDeepDict rest

/-- Value-level part of `hasDefaultDeepDict`. -/
def hasDefaultDeepVal : Json → Bool
  | .obj es => hasDefaultDeepDict es
  | .arr xs => hasDefaultDeepArr xs
  | _ => false

/-- Array-level part of `hasDefaultDeepDict`: descends into every element. -/
def hasDefaultDeepArr : List Json → Bool
  | [] => false
  | x :: xs => hasDefaultDeepVal x || hasDefaultDeepArr xs

end

/-- A JSON-schema dict whose `default` key sits inside an object inside an
array inside an array (a position `_strip_defaults` never visits). -/
def c6Example : List (String × Json) :=
  [("examples", Json.arr [Json.arr [Json.obj [("default", Json.num 1)]]])]

/-- An OpenAI-style vendor response carrying one tool call but the vendor
finish reason `"stop"`. -/
def c2Resp : OResp :=
  OResp.mk
    [OChoice.mk
      (OMsgOut.mk none (some [OTc.mk "call_1" (OFn.mk "get_quote" (some "\x7b\x7d"))]))
      (some "stop")]
    none

/-- The result the OpenAI adapter decodes from `c2Resp`. -/
def c2Result : LLMResult :=
  { content := ""
    tool_calls := [ToolCall.mk "call_1" "get_quote" "\x7b\x7d"]
    finish_reason := "stop"
    usage := none }

/-- A completer that always requests one further tool call. -/
def alwaysToolCompleter : List Msg → LLMResult := fun _ =>
  { content := ""
    tool_calls := [ToolCall.mk "call_1" "get_quote" "AAPL"]
    finish_reason := "tool_calls"
    usage := none }

/-- A `json.loads` model that fails on every string. -/
def jlNone : String → Option Json := fun _ => none

/-- A `json.loads` model that decodes every string as the null value. -/
def jlNull : String → Option Json := fun _ => some Json.null

/-- A `json.dumps` model (its values are irrelevant to every theorem below). -/
def jdConst : Json → String := fun _ => "d"

/-! ## Theorems -/

mutual

theorem strip_defaults_idem : ∀ d, strip_defaults (strip_defaults d) = strip_defaults d
  | [] => by simp [strip_defaults]
  | (k, v) :: rest => by
    by_cases hk : k = "default" <;>
      simp [strip_defaults, hk, strip_defaults_idem rest, stripItem_idem v]

theorem stripItem_idem : ∀ j, stripItem (stripItem j) = stripItem j
  | .obj es => by simp [stripItem, strip_defaults_idem es]
  | .arr xs => by simp [stripItem, stripArr_idem xs]
  | .null => by simp [stripItem]
  | .bool b => by simp [stripItem]
  | .num n => by simp [stripItem]
  | .str s => by simp [stripItem]

theorem stripArr_idem : ∀ xs, stripArr (stripArr xs) = stripArr xs
  | [] => by simp [stripArr]
  | x :: xs => by
    cases x <;> simp [stripArr, stripArr_idem xs, strip_defaults_idem]

end

mutual

theorem strip_defaults_clean : ∀ d, cleanDict (strip_defaults d) = true
  | [] => by simp [strip_defaults, cleanDict]
  | (k, v) :: rest => by
    by_cases hk : k = "default" <;>
      simp [strip_defaults, cleanDict, hk, strip_defaults_clean rest, stripItem_clean v]

theorem stripItem_clean : ∀ j, cleanItem (stripItem j) = true
  | .obj es => by simp [stripItem, cleanItem, strip_defaults_clean es]
  | .arr xs => by simp [stripItem, cleanItem, stripArr_clean xs]
  | .null => by simp [stripItem, cleanItem]
  | .bool b => by simp [stripItem, cleanItem]
  | .num n => by simp [stripItem, cleanItem]
  | .str s => by simp [stripItem, cleanItem]

theorem stripArr_clean : ∀ xs, cleanArr (stripArr xs) = true
  | [] => by simp [stripArr, cleanArr]
  | x :: xs => by
    cases x <;> simp [stripArr, cleanArr, stripArr_clean xs, strip_defaults_clean]

end

theorem strip_defaults_keeps (d : List (String × Json)) :
    ∀ k v, (k, v) ∈ d → k ≠ "default" → (k, stripItem v) ∈ strip_defaults d := by
  induction d with
  | nil => intro k v h; simp at h
  | cons hd rest ih =>
    obtain ⟨k2, v2⟩ := hd
    intro k v h hk
    rcases List.mem_cons.mp h with h1 | h1
    · obtain ⟨hkk, hvv⟩ := Prod.mk.inj h1
      subst hkk; subst hvv
      simp [strip_defaults, hk]
    · by_cases hk2 : k2 = "default" <;> simp [strip_defaults, hk2, ih k v h1 hk]

theorem strip_defaults_only (d : List (String × Json)) :
    ∀ k w, (k, w) ∈ strip_defaults d →
      k ≠ "default" ∧ ∃ v, (k, v) ∈ d ∧ w = stripItem v := by
  induction d with
  | nil => intro k w h; simp [strip_defaults] at h
  | cons hd rest ih =>
    obtain ⟨k2, v2⟩ := hd
    intro k w h
    by_cases hk2 : k2 = "default"
    · simp only [strip_defaults, if_pos hk2] at h
      obtain ⟨hne, v, hv, hw⟩ := ih k w h
      exact ⟨hne, v, List.mem_cons_of_mem _ hv, hw⟩
    · simp only [strip_defaults, if_neg hk2] at h
      rcases List.mem_cons.mp h with h1 | h1
      · obtain ⟨hk, hw⟩ := Prod.mk.inj h1
        subst hk
        exact ⟨hk2, v2, by simp, hw⟩
      · obtain ⟨hne, v, hv, hw⟩ := ih k w h1
        exact ⟨hne, v, List.mem_cons_of_mem _ hv, hw⟩

/-- C6 counterexample: on `c6Example`, whose only `default` key sits inside
an object inside an array inside an array, `_strip_defaults` is the
identity — the deeply nested `default` key is not removed, refuting the
claim that every `default` key at every nesting depth is stripped. -/
theorem C6_counterexample :
    strip_defaults c6Example = c6Example ∧ hasDefaultDeepDict c6Example = true := by
  constructor
  · simp [c6Example, strip_defaults, stripItem, stripArr]
  · simp [c6Example, hasDefaultDeepDict, hasDefaultDeepVal, hasDefaultDeepArr]

/-- C6 (amended): `_strip_defaults` is idempotent; it removes every `default`
key at the positions it visits (the dict itself, dict values recursively,
and dict elements of list values — but not inside lists nested within
lists); every other key is kept, with its value transformed by the same
stripping, and nothing else is introduced. -/
theorem C6_strip_defaults_amended :
    (∀ d, strip_defaults (strip_defaults d) = strip_defaults d) ∧
    (∀ d, cleanDict (strip_defaults d) = true) ∧
    (∀ d k v, (k, v) ∈ d → k ≠ "default" → (k, stripItem v) ∈ strip_defaults d) ∧
    (∀ d k w, (k, w) ∈ strip_defaults d →
      k ≠ "default" ∧ ∃ v, (k, v) ∈ d ∧ w = stripItem v) :=
  ⟨strip_defaults_idem, strip_defaults_clean,
    fun d => strip_defaults_keeps d, fun d => strip_defaults_only d⟩

/-- C6 witness: the amended theorem evaluated on the schema from the
repository's own test for `_strip_defaults`. -/
theorem C6_strip_defaults_amended_witness :
    ("ticker", stripItem (Json.obj [("type", Json.str "string"), ("default", Json.str "AAPL")]))
      ∈ strip_defaults
        [("ticker", Json.obj [("type", Json.str "string"), ("default", Json.str "AAPL")])] :=
  C6_strip_defaults_amended.2.2.1 _ _ _ (by simp) (by simp)

/-- C2 counterexample: the OpenAI adapter decodes a response carrying one
tool call but vendor finish reason `"stop"` into a result whose
`finish_reason` is `"stop"` while `tool_calls` is non-empty, refuting the
claim that the invariant holds for every adapter and every vendor response. -/
theorem C2_counterexample :
    openai_complete "openai" (fun _ => Except.ok c2Resp) [] = .ok c2Result ∧
    ¬ ((c2Result.finish_reason = "tool_calls") ↔ c2Result.tool_calls ≠ []) := by
  refine ⟨rfl, ?_⟩
  decide

/-- C2 (amended): the Gemini decoder satisfies the invariant for every vendor
response, because it derives `finish_reason` from the presence of decoded
tool calls; each other decoder derives `finish_reason` solely from the
vendor-reported reason, so the invariant holds exactly for responses whose
reported reason is consistent with the presence of tool calls. -/
theorem C2_finish_reason_invariant :
    (∀ jd r, ((g_parse_response jd r).finish_reason = "tool_calls" ↔
        (g_parse_response jd r).tool_calls ≠ [])) ∧
    (∀ c u, (((o_decode_choice c u).finish_reason = "tool_calls") ↔
        (o_decode_choice c u).tool_calls ≠ []) ↔
      ((pyOrStr c.finish_reason "stop" = "tool_calls") ↔ c.message.tool_calls.getD [] ≠ [])) ∧
    (∀ jd r, (((a_parse_response jd r).finish_reason = "tool_calls") ↔
        (a_parse_response jd r).tool_calls ≠ []) ↔
      ((r.stop_reason = some "tool_use") ↔
        ∃ b ∈ r.content, ∃ i n inp, b = ARespBlock.toolUse i n inp)) ∧
    (∀ jd r, (((b_parse_response jd r).finish_reason = "tool_calls") ↔
        (b_parse_response jd r).tool_calls ≠ []) ↔
      ((r.stopReason.getD "end_turn" = "tool_use") ↔
        ∃ b ∈ r.content, ∃ i n inp, b = BRespBlock.toolUse i n inp)) := by
  refine ⟨?_, ?_, ?_, ?_⟩
  · intro jd r
    by_cases h : (gCollect jd
        (match r.candidates with
          | [] => []
          | c :: _ => c.parts) 0).2 = [] <;>
      simp [g_parse_response, h]
    rcases r.candidates with _ | ⟨c, rest⟩
    · simp
    · obtain ⟨cparts, cfr⟩ := c
      rcases cfr with _ | s
      · simp
      · by_cases hs : s = "MAX_TOKENS" <;> simp [hs]
  · intro c u
    have h1 : (o_decode_choice c u).finish_reason = pyOrStr c.finish_reason "stop" := rfl
    have h2 : (o_decode_choice c u).tool_calls ≠ [] ↔ c.message.tool_calls.getD [] ≠ [] := by
      cases htc : c.message.tool_calls <;> simp [o_decode_choice, htc]
    rw [h1]
    exact iff_congr Iff.rfl h2
  · intro jd r
    have h1 : (a_parse_response jd r).finish_reason = "tool_calls" ↔
        r.stop_reason = some "tool_use" := by
      by_cases h : r.stop_reason = some "tool_use"
      · simp [a_parse_response, h]
      · by_cases h2 : r.stop_reason = some "max_tokens" <;> simp [a_parse_response, h, h2]
    have h2 : (a_parse_response jd r).tool_calls ≠ [] ↔
        ∃ b ∈ r.content, ∃ i n inp, b = ARespBlock.toolUse i n inp := by
      simp only [a_parse_response, ne_eq, List.filterMap_eq_nil_iff]
      constructor
      · intro h
        by_contra hc
        push_neg at hc
        apply h
        intro b hb
        have hbc := hc b hb
        cases b with
        | text s => rfl
        | toolUse i n inp => exact absurd rfl (hbc i n inp)
        | other => rfl
      · rintro ⟨b, hb, i, n, inp, rfl⟩ h
        simpa using h _ hb
    exact iff_congr h1 h2
  · intro jd r
    have h1 : (b_parse_response jd r).finish_reason = "tool_calls" ↔
        r.stopReason.getD "end_turn" = "tool_use" := by
      by_cases h : r.stopReason.getD "end_turn" = "tool_use"
      · simp [b_parse_response, h]
      · by_cases h2 : r.stopReason.getD "end_turn" = "max_tokens" <;>
          simp [b_parse_response, h, h2]
    have h2 : (b_parse_response jd r).tool_calls ≠ [] ↔
        ∃ b ∈ r.content, ∃ i n inp, b = BRespBlock.toolUse i n inp := by
      simp only [b_parse_response, ne_eq, List.filterMap_eq_nil_iff]
      constructor
      · intro h
        by_contra hc
        push_neg at hc
        apply h
        intro b hb
        have hbc := hc b hb
        cases b with
        | text s => rfl
        | toolUse i n inp => exact absurd rfl (hbc i n inp)
      · rintro ⟨b, hb, i, n, inp, rfl⟩ h
        simpa using h _ hb
    exact iff_congr h1 h2

/-- C2 witness: the Gemini part of the amended invariant evaluated on a
concrete response with one function-call part, and the OpenAI part on the
concrete inconsistent response. -/
theorem C2_finish_reason_invariant_witness :
    ((g_parse_response jdConst
        (GResp.mk [GCand.mk [GPartIn.mk none (some (GFnCall.mk "get_quote" none))] none]
          none)).finish_reason = "tool_calls" ↔
      (g_parse_response jdConst
        (GResp.mk [GCand.mk [GPartIn.mk none (some (GFnCall.mk "get_quote" none))] none]
          none)).tool_calls ≠ []) :=
  C2_finish_reason_invariant.1 jdConst _

theorem orch_run_aux_exhausts (completer : List Msg → LLMResult)
    (executor : String → String → String)
    (h : ∀ ms, (completer ms).tool_calls ≠ []) :
    ∀ fuel msgs, (orch_run_aux completer executor fuel msgs).1 = fallbackMessage ∧
      (orch_run_aux completer executor fuel msgs).2.2 = fuel ∧
      msgs <+: (orch_run_aux completer executor fuel msgs).2.1 := by
  intro fuel
  induction fuel with
  | zero => intro msgs; exact ⟨rfl, rfl, List.prefix_refl _⟩
  | succ n ih =>
    intro msgs
    have hnot := h msgs
    simp only [orch_run_aux, if_neg hnot]
    obtain ⟨h1, h2, h3⟩ := ih (msgs ++
      Msg.assistant (if (completer msgs).content = "" then none else some (completer msgs).content)
          ((completer msgs).tool_calls.map fun tc =>
            MsgToolCall.mk tc.id (MsgFn.mk tc.name (ArgVal.str tc.arguments))) ::
        ((completer msgs).tool_calls.map fun tc =>
          Msg.tool tc.id (executor tc.name tc.arguments)))
    refine ⟨h1, by simpa using h2, ?_⟩
    exact List.IsPrefix.trans (List.prefix_append _ _) h3

/-- C1: with a completer that always requests a further tool call, the
orchestrator's `run()` terminates after exactly `MAX_ROUNDS = 10` rounds and
returns the fixed fallback string together with the messages accumulated so
far (which extend the initial conversation), rather than looping forever or
raising an error. The orchestrator is modelled from the spec (see
`orch_run`), since the repository delegates its round loop to an external
agent library. -/
theorem C1_orchestrator_round_budget (completer : List Msg → LLMResult)
    (executor : String → String → String) (instruction user_message : String)
    (h : ∀ ms, (completer ms).tool_calls ≠ []) :
    (orch_run completer executor instruction user_message).1 = fallbackMessage ∧
    (orch_run completer executor instruction user_message).2.2 = 10 ∧
    [Msg.system instruction, Msg.user user_message] <+:
      (orch_run completer executor instruction user_message).2.1 :=
  orch_run_aux_exhausts completer executor h MAX_ROUNDS
    [Msg.system instruction, Msg.user user_message]

/-- C1 witness: the round-budget theorem evaluated on a concrete completer
that always requests one tool call. -/
theorem C1_orchestrator_round_budget_witness :
    (orch_run alwaysToolCompleter (fun _ _ => "result") "sys" "hi").1 = fallbackMessage ∧
    (orch_run alwaysToolCompleter (fun _ _ => "result") "sys" "hi").2.2 = 10 ∧
    [Msg.system "sys", Msg.user "hi"] <+:
      (orch_run alwaysToolCompleter (fun _ _ => "result") "sys" "hi").2.1 :=
  C1_orchestrator_round_budget alwaysToolCompleter (fun _ _ => "result") "sys" "hi"
    (fun _ => by simp [alwaysToolCompleter])

theorem splitAtFirstSlash_append (a b : List Char) (ha : '/' ∉ a) :
    splitAtFirstSlash (a ++ '/' :: b) = (a, b) := by
  induction a with
  | nil => simp [splitAtFirstSlash]
  | cons c cs ih =>
    have hc : c ≠ '/' := fun h => ha (h ▸ List.mem_cons_self c cs)
    have hcs : '/' ∉ cs := fun h => ha (List.mem_cons_of_mem c h)
    simp [splitAtFirstSlash, hc, ih hcs]

theorem parse_model_string_split (a b : List Char) (ha : '/' ∉ a) :
    parse_model_string (String.mk (a ++ '/' :: b)) =
      (String.mk (a.map Char.toLower), String.mk b) := by
  have hmem : '/' ∈ (String.mk (a ++ '/' :: b)).toList := by
    show '/' ∈ a ++ '/' :: b
    exact List.mem_append_right a (List.mem_cons_self _ _)
  simp only [parse_model_string, if_pos hmem]
  show (lowerStr (String.mk (splitAtFirstSlash (a ++ '/' :: b)).1),
      String.mk (splitAtFirstSlash (a ++ '/' :: b)).2) = _
  rw [splitAtFirstSlash_append a b ha]
  rfl

theorem lookup_map_litellm_key : lookupAssoc PROVIDER_MAP "_litellm" = none := by decide

theorem lookup_map_empty_key : lookupAssoc PROVIDER_MAP "" = none := by decide

theorem load_litellm_spec (st : RegistryState) (hWF : st.WF) :
    (load_litellm st).1.className = "LiteLLMProvider" ∧ (load_litellm st).1.pfx = "litellm" ∧
    (load_litellm st).2.WF ∧
    lookupAssoc (load_litellm st).2.cache "_litellm" = some (load_litellm st).1 := by
  cases h : lookupAssoc st.cache "_litellm" with
  | some i =>
    rcases hWF _ _ h with ⟨_, hcn, hpfx⟩ | ⟨mc, hmc, _⟩
    · exact ⟨by simp [load_litellm, h, hcn], by simp [load_litellm, h, hpfx],
        by simpa [load_litellm, h] using hWF, by simp [load_litellm, h]⟩
    · exact absurd (lookup_map_litellm_key ▸ hmc) (by simp)
  | none =>
    refine ⟨by simp [load_litellm, h], by simp [load_litellm, h], ?_, by simp [load_litellm, h, lookupAssoc]⟩
    intro k i hki
    simp only [load_litellm, h, lookupAssoc] at hki
    by_cases hk : k = "_litellm"
    · subst hk
      simp at hki
      exact Or.inl ⟨rfl, by simp [← hki], by simp [← hki]⟩
    · rw [if_neg (fun he : "_litellm" = k => hk he.symm)] at hki
      exact hWF _ _ hki

theorem load_provider_cached (st : RegistryState) (pfx : String) (i : ProviderInstance)
    (h : lookupAssoc st.cache pfx = some i) : load_provider st pfx = (i, st) := by
  simp [load_provider, h]

theorem load_provider_spec (st : RegistryState) (pfx : String) (mc : String × String)
    (hmc : lookupAssoc PROVIDER_MAP pfx = some mc) (hWF : st.WF) :
    (load_provider st pfx).1.className = mc.2 ∧ (load_provider st pfx).1.pfx = pfx ∧
    (load_provider st pfx).2.WF ∧
    lookupAssoc (load_provider st pfx).2.cache pfx = some (load_provider st pfx).1 := by
  have hpfx_ne : pfx ≠ "_litellm" := by
    intro he
    rw [he, lookup_map_litellm_key] at hmc
    exact Option.noConfusion hmc
  cases h : lookupAssoc st.cache pfx with
  | some i =>
    rcases hWF _ _ h with ⟨hk, _, _⟩ | ⟨mc2, hmc2, hcn, hpfx⟩
    · exact absurd hk hpfx_ne
    · have hmm : mc2 = mc := by rw [hmc] at hmc2; exact (Option.some.inj hmc2).symm
      subst hmm
      exact ⟨by simp [load_provider, h, hcn], by simp [load_provider, h, hpfx],
        by simpa [load_provider, h] using hWF, by simp [load_provider, h]⟩
  | none =>
    have hlp : load_provider st pfx =
        (⟨st.nextId, mc.2, pfx⟩,
          ⟨(pfx, ⟨st.nextId, mc.2, pfx⟩) :: st.cache, st.nextId + 1⟩) := by
      simp only [load_provider, h, hmc]
    refine ⟨by rw [hlp], by rw [hlp], ?_, by rw [hlp]; simp [lookupAssoc]⟩
    intro k i hki
    rw [hlp] at hki
    simp only [lookupAssoc] at hki
    by_cases hk : pfx = k
    · subst hk
      rw [if_pos rfl] at hki
      have hii := Option.some.inj hki
      exact Or.inr ⟨mc, hmc, by rw [← hii], by rw [← hii]⟩
    · rw [if_neg hk] at hki
      exact hWF _ _ hki

/-- C3: a model string containing a `/` is split on the first `/`, the part
before it is case-folded as the prefix and everything after it — further
slashes included — is passed unchanged as the model id; for an unknown or
empty prefix, resolution returns the LiteLLM fallback adapter with the
entire original model string as the model id. -/
theorem C3_model_string_resolution :
    (∀ a b : List Char, '/' ∉ a →
      parse_model_string (String.mk (a ++ '/' :: b)) =
        (String.mk (a.map Char.toLower), String.mk b)) ∧
    (∀ (st : RegistryState) (model : String), st.WF →
      lookupAssoc PROVIDER_MAP (parse_model_string model).1 = none →
      (get_provider st model).1.2 = model ∧
      (get_provider st model).1.1.className = "LiteLLMProvider") := by
  refine ⟨parse_model_string_split, ?_⟩
  intro st model hWF hunknown
  by_cases hp : (parse_model_string model).1 = ""
  · have hg : get_provider st model = (((load_litellm st).1, model), (load_litellm st).2) := by
      simp only [get_provider, if_pos hp]
    rw [hg]
    exact ⟨rfl, (load_litellm_spec st hWF).1⟩
  · have hg : get_provider st model = (((load_litellm st).1, model), (load_litellm st).2) := by
      simp only [get_provider, if_neg hp, hunknown, Option.isSome_none, Bool.false_eq_true,
        if_false]
    rw [hg]
    exact ⟨rfl, (load_litellm_spec st hWF).1⟩

/-- C3 witness: the splitting specification evaluated on the namespaced
Together model id, and the fallback specification on an unknown vendor. -/
theorem C3_model_string_resolution_witness :
    parse_model_string (String.mk ("together".toList ++ '/' :: "meta-llama/Llama-3-70b".toList)) =
      (String.mk ("together".toList.map Char.toLower), String.mk "meta-llama/Llama-3-70b".toList) ∧
    (get_provider RegistryState.empty "unknown-vendor/foo").1.2 = "unknown-vendor/foo" ∧
    (get_provider RegistryState.empty "unknown-vendor/foo").1.1.className = "LiteLLMProvider" :=
  ⟨C3_model_string_resolution.1 "together".toList "meta-llama/Llama-3-70b".toList (by decide),
    C3_model_string_resolution.2 RegistryState.empty "unknown-vendor/foo"
      (fun k i h => by simp [lookupAssoc, RegistryState.empty] at h) (by decide)⟩

/-- C4: resolving two model strings with the same known vendor prefix
returns the identical cached adapter instance, with no second construction
(the registry state is unchanged by the second resolve); resolving a
different known prefix afterwards returns a distinct instance, even when
the two prefixes map to the same adapter class. -/
theorem C4_registry_prefix_caching (st : RegistryState) (m1 m2 : String)
    (hWF : st.WF) (mc1 : String × String)
    (h1 : lookupAssoc PROVIDER_MAP (parse_model_string m1).1 = some mc1) :
    ((parse_model_string m2).1 = (parse_model_string m1).1 →
      (get_provider (get_provider st m1).2 m2).1.1 = (get_provider st m1).1.1 ∧
      (get_provider (get_provider st m1).2 m2).2 = (get_provider st m1).2) ∧
    (∀ mc2 : String × String,
      lookupAssoc PROVIDER_MAP (parse_model_string m2).1 = some mc2 →
      (parse_model_string m2).1 ≠ (parse_model_string m1).1 →
      (get_provider (get_provider st m1).2 m2).1.1 ≠ (get_provider st m1).1.1) := by
  have hp1ne : (parse_model_string m1).1 ≠ "" := by
    intro he
    rw [he, lookup_map_empty_key] at h1
    exact Option.noConfusion h1
  have hstep1 : get_provider st m1 =
      ((( load_provider st (parse_model_string m1).1).1, (parse_model_string m1).2),
        (load_provider st (parse_model_string m1).1).2) := by
    simp [get_provider, if_neg hp1ne, h1]
  obtain ⟨hcn1, hpfx1, hWF1, hcache1⟩ := load_provider_spec st _ mc1 h1 hWF
  constructor
  · intro hsame
    have hp2ne : (parse_model_string m2).1 ≠ "" := hsame ▸ hp1ne
    have h2 : lookupAssoc PROVIDER_MAP (parse_model_string m2).1 = some mc1 := hsame ▸ h1
    have hstep2 : get_provider (get_provider st m1).2 m2 =
        (((load_provider (get_provider st m1).2 (parse_model_string m2).1).1,
            (parse_model_string m2).2),
          (load_provider (get_provider st m1).2 (parse_model_string m2).1).2) := by
      simp [get_provider, if_neg hp2ne, h2]
    have hcached : lookupAssoc (get_provider st m1).2.cache (parse_model_string m2).1 =
        some (get_provider st m1).1.1 := by
      rw [hsame, hstep1]
      exact hcache1
    have hlp2 : load_provider (get_provider st m1).2 (parse_model_string m2).1 =
        ((get_provider st m1).1.1, (get_provider st m1).2) :=
      load_provider_cached _ _ _ hcached
    have hfin : get_provider (get_provider st m1).2 m2 =
        (((get_provider st m1).1.1, (parse_model_string m2).2), (get_provider st m1).2) := by
      rw [hstep2, hlp2]
    exact ⟨by rw [hfin], by rw [hfin]⟩
  · intro mc2 h2 hdiff
    have hp2ne : (parse_model_string m2).1 ≠ "" := by
      intro he
      rw [he, lookup_map_empty_key] at h2
      exact Option.noConfusion h2
    have hstep2 : get_provider (get_provider st m1).2 m2 =
        (((load_provider (get_provider st m1).2 (parse_model_string m2).1).1,
            (parse_model_string m2).2),
          (load_provider (get_provider st m1).2 (parse_model_string m2).1).2) := by
      simp [get_provider, if_neg hp2ne, h2]
    obtain ⟨hcn2, hpfx2, hWF2, hcache2⟩ :=
      load_provider_spec (get_provider st m1).2 _ mc2 h2 (by rw [hstep1]; exact hWF1)
    have hL : (get_provider (get_provider st m1).2 m2).1.1 =
        (load_provider (get_provider st m1).2 (parse_model_string m2).1).1 := by
      rw [hstep2]
    have hR : (get_provider st m1).1.1 = (load_provider st (parse_model_string m1).1).1 := by
      rw [hstep1]
    rw [hL, hR]
    intro heq
    apply hdiff
    rw [← hpfx2, ← hpfx1, heq]

/-- C4 witness: from the empty registry, resolving two `openai/...` strings
returns the same instance with no state change, and a `together/...` resolve
after a `groq/...` resolve returns a different instance (both prefixes map
to the OpenAI-compatible adapter class). -/
theorem C4_registry_prefix_caching_witness :
    ((get_provider (get_provider RegistryState.empty "openai/gpt-4o").2 "openai/gpt-4o-mini").1.1 =
        (get_provider RegistryState.empty "openai/gpt-4o").1.1 ∧
      (get_provider (get_provider RegistryState.empty "openai/gpt-4o").2 "openai/gpt-4o-mini").2 =
        (get_provider RegistryState.empty "openai/gpt-4o").2) ∧
    (get_provider (get_provider RegistryState.empty "groq/llama-3.1-70b").2
        "together/meta-llama/Llama-3-70b").1.1 ≠
      (get_provider RegistryState.empty "groq/llama-3.1-70b").1.1 :=
  ⟨(C4_registry_prefix_caching RegistryState.empty "openai/gpt-4o" "openai/gpt-4o-mini"
      (fun k i h => by simp [lookupAssoc, RegistryState.empty] at h)
      ("openai_", "OpenAIProvider") (by decide)).1 (by decide),
    (C4_registry_prefix_caching RegistryState.empty "groq/llama-3.1-70b"
      "together/meta-llama/Llama-3-70b"
      (fun k i h => by simp [lookupAssoc, RegistryState.empty] at h)
      ("openai_", "OpenAIProvider") (by decide)).2
      ("openai_", "OpenAIProvider") (by decide) (by decide)⟩

/-- C8: for every adapter, an exception raised by the vendor SDK call inside
`complete()` (here: a vendor oracle that always raises, with exception text
`exc`) surfaces as a wrapped `LLMError` tagged with that adapter's own
vendor name and a retryable flag derived from substring matching on the
lower-cased error text; no vendor exception escapes the vendor-call step
unwrapped. Conversion is assumed to succeed for the three adapters that
convert messages before the call (otherwise the call is never made). -/
theorem C8_vendor_errors_wrapped (jl : String → Option Json) (jd : Json → String)
    (msgs : List Msg) (exc pfx : String)
    (ha : ∃ r, a_convert_messages jl msgs = .ok r)
    (hg : ∃ r, g_convert_messages jl msgs = .ok r)
    (hb : ∃ r, b_convert_messages jl msgs = .ok r) :
    anthropic_complete jl jd (fun _ _ => .error exc) msgs = .error (.llm ⟨exc, "anthropic",
      containsSub (lowerStr exc) "rate" || containsSub (lowerStr exc) "overloaded"⟩) ∧
    gemini_complete jl jd (fun _ _ => .error exc) msgs = .error (.llm ⟨exc, "gemini",
      containsSub (lowerStr exc) "quota" || containsSub (lowerStr exc) "rate"⟩) ∧
    bedrock_complete jl jd (fun _ _ => .error exc) msgs = .error (.llm ⟨exc, "bedrock",
      containsSub (lowerStr exc) "throttl"⟩) ∧
    openai_complete pfx (fun _ => .error exc) msgs = .error (.llm ⟨exc, pfx,
      containsSub (lowerStr exc) "rate"⟩) ∧
    litellm_complete (fun _ => .error exc) msgs = .error (.llm ⟨exc, "litellm",
      containsSub (lowerStr exc) "rate"⟩) ∧
    mistral_complete (fun _ => .error exc) msgs = .error (.llm ⟨exc, "mistral",
      containsSub (lowerStr exc) "rate"⟩) := by
  obtain ⟨ra, hra⟩ := ha
  obtain ⟨rg, hrg⟩ := hg
  obtain ⟨rb, hrb⟩ := hb
  refine ⟨?_, ?_, ?_, rfl, rfl, rfl⟩
  · obtain ⟨sys, amsgs⟩ := ra
    simp [anthropic_complete, hra]
  · obtain ⟨sys, contents⟩ := rg
    simp [gemini_complete, hrg]
  · obtain ⟨sys, bmsgs⟩ := rb
    simp [bedrock_complete, hrb]

/-- C8 witness: the wrapping theorem evaluated on the empty conversation and
a concrete `overloaded_error` exception raised by every vendor oracle. -/
theorem C8_vendor_errors_wrapped_witness :
    anthropic_complete jlNone jdConst (fun _ _ => .error "overloaded_error") [] =
      .error (.llm ⟨"overloaded_error", "anthropic", true⟩) ∧
    gemini_complete jlNone jdConst (fun _ _ => .error "overloaded_error") [] =
      .error (.llm ⟨"overloaded_error", "gemini", false⟩) := by
  have h := C8_vendor_errors_wrapped jlNone jdConst [] "overloaded_error" "openai"
    ⟨("", []), by simp [a_convert_messages, a_convert_core, Except.map, String.intercalate]⟩
    ⟨("", []), by simp [g_convert_messages, g_convert_core, Except.map, String.intercalate]⟩
    ⟨([], []), by simp [b_convert_messages, b_convert_core]⟩
  refine ⟨?_, ?_⟩
  · rw [h.1]
    have hr : (containsSub (lowerStr "overloaded_error") "rate" ||
        containsSub (lowerStr "overloaded_error") "overloaded") = true := by decide
    rw [hr]
  · rw [h.2.1]
    have hr : (containsSub (lowerStr "overloaded_error") "quota" ||
        containsSub (lowerStr "overloaded_error") "rate") = false := by decide
    rw [hr]

theorem b_convert_core_append (jl : String → Option Json) (xs ys : List Msg) :
    b_convert_core jl (xs ++ ys) = (b_convert_core jl xs).bind fun r =>
      (b_convert_core jl ys).map fun q => (r.1 ++ q.1, r.2 ++ q.2) := by
  induction xs with
  | nil =>
    cases h : b_convert_core jl ys with
    | error e => simp [b_convert_core, h, Except.bind, Except.map]
    | ok q => simp [b_convert_core, h, Except.bind, Except.map]
  | cons m rest ih =>
    cases m with
    | system c =>
      simp only [List.cons_append, List.append_eq, b_convert_core]
      rw [ih]
      cases hr : b_convert_core jl rest with
      | error e => simp [Except.bind, Except.map]
      | ok r =>
        cases hy : b_convert_core jl ys with
        | error e => simp [Except.bind, Except.map]
        | ok q => simp [Except.bind, Except.map]
    | user c =>
      simp only [List.cons_append, List.append_eq, b_convert_core]
      rw [ih]
      cases hr : b_convert_core jl rest with
      | error e => simp [Except.bind, Except.map]
      | ok r =>
        cases hy : b_convert_core jl ys with
        | error e => simp [Except.bind, Except.map]
        | ok q => simp [Except.bind, Except.map]
    | assistant c tcs =>
      simp only [List.cons_append, List.append_eq, b_convert_core]
      rw [ih]
      cases ht : bToolUses jl tcs with
      | error e => simp [Except.bind, Except.map]
      | ok tus =>
        cases hr : b_convert_core jl rest with
        | error e => simp [Except.bind, Except.map]
        | ok r =>
          cases hy : b_convert_core jl ys with
          | error e => simp [Except.bind, Except.map]
          | ok q => simp [Except.bind, Except.map]
    | tool tid c =>
      simp only [List.cons_append, List.append_eq, b_convert_core]
      rw [ih]
      cases hr : b_convert_core jl rest with
      | error e => simp [Except.bind, Except.map]
      | ok r =>
        cases hy : b_convert_core jl ys with
        | error e => simp [Except.bind, Except.map]
        | ok q => simp [Except.bind, Except.map]
    | other =>
      simp only [List.cons_append, List.append_eq, b_convert_core]
      rw [ih]

/-- C9: in the Bedrock conversion, every canonical tool message becomes
exactly one Converse user message carrying a `toolResult` block with the
message's `tool_call_id` as `toolUseId`; the tool content is embedded as its
decoded JSON value when `json.loads` succeeds and wrapped as
`{"result": <raw string>}` when it does not. -/
theorem C9_bedrock_tool_results (jl : String → Option Json) (pre post : List Msg)
    (tid c : String) (s1 : List String) (m1 : List BMsg)
    (hpre : b_convert_core jl pre = .ok (s1, m1)) :
    b_convert_core jl (pre ++ Msg.tool tid c :: post) =
      (b_convert_core jl post).map (fun r =>
        (s1 ++ r.1, m1 ++ BMsg.mk "user" [BBlock.toolResult tid (toolOutput jl c)] :: r.2)) ∧
    (∀ j, jl c = some j → toolOutput jl c = j) ∧
    (jl c = none → toolOutput jl c = Json.obj [("result", Json.str c)]) := by
  refine ⟨?_, fun j hj => by simp [toolOutput, hj], fun hn => by simp [toolOutput, hn]⟩
  rw [b_convert_core_append jl pre (Msg.tool tid c :: post), hpre]
  cases hp : b_convert_core jl post with
  | error e => simp [b_convert_core, hp, Except.bind, Except.map]
  | ok q => simp [b_convert_core, hp, Except.bind, Except.map]

/-- C9 witness: the Bedrock tool-result theorem evaluated on a concrete
conversation, with a `json.loads` model that decodes the content as `null`. -/
theorem C9_bedrock_tool_results_witness :
    b_convert_core jlNull [Msg.user "hi", Msg.tool "call_1" "res"] =
      .ok ([], [BMsg.mk "user" [BBlock.text "hi"],
        BMsg.mk "user" [BBlock.toolResult "call_1" Json.null]]) := by
  have h := C9_bedrock_tool_results jlNull [Msg.user "hi"] [] "call_1" "res" []
    [BMsg.mk "user" [BBlock.text "hi"]] rfl
  have h1 := h.1
  simp only [List.singleton_append] at h1
  rw [h1]
  simp [jlNull, toolOutput, Except.map, b_convert_core]

theorem g_convert_core_append (jl : String → Option Json) (xs : List Msg) :
    ∀ (fns : List (String × String)) (ys : List Msg),
      g_convert_core jl fns (xs ++ ys) = (g_convert_core jl fns xs).bind fun r =>
        (g_convert_core jl r.2.2 ys).map fun q => (r.1 ++ q.1, r.2.1 ++ q.2.1, q.2.2) := by
  induction xs with
  | nil =>
    intro fns ys
    cases h : g_convert_core jl fns ys with
    | error e => simp [g_convert_core, h, Except.bind, Except.map]
    | ok q => simp [g_convert_core, h, Except.bind, Except.map]
  | cons m rest ih =>
    intro fns ys
    cases m with
    | system c =>
      simp only [List.cons_append, List.append_eq, g_convert_core]
      rw [ih]
      cases hr : g_convert_core jl fns rest with
      | error e => simp [Except.bind, Except.map]
      | ok r =>
        cases hy : g_convert_core jl r.2.2 ys with
        | error e => simp [hy, Except.bind, Except.map]
        | ok q => simp [hy, Except.bind, Except.map]
    | user c =>
      simp only [List.cons_append, List.append_eq, g_convert_core]
      rw [ih]
      cases hr : g_convert_core jl fns rest with
      | error e => simp [Except.bind, Except.map]
      | ok r =>
        cases hy : g_convert_core jl r.2.2 ys with
        | error e => simp [hy, Except.bind, Except.map]
        | ok q => simp [hy, Except.bind, Except.map]
    | assistant c tcs =>
      cases hp : gAssistantParts jl fns tcs with
      | error e => simp [List.cons_append, g_convert_core, hp, Except.bind, Except.map]
      | ok p =>
        simp only [List.cons_append, List.append_eq, g_convert_core, hp]
        rw [ih]
        cases hr : g_convert_core jl p.2 rest with
        | error e => simp [Except.bind, Except.map]
        | ok r =>
          cases hy : g_convert_core jl r.2.2 ys with
          | error e => simp [hy, Except.bind, Except.map]
          | ok q => simp [hy, Except.bind, Except.map]
    | tool tid c =>
      simp only [List.cons_append, List.append_eq, g_convert_core]
      rw [ih]
      cases hr : g_convert_core jl fns rest with
      | error e => simp [Except.bind, Except.map]
      | ok r =>
        cases hy : g_convert_core jl r.2.2 ys with
        | error e => simp [hy, Except.bind, Except.map]
        | ok q => simp [hy, Except.bind, Except.map]
    | other =>
      simp only [List.cons_append, List.append_eq, g_convert_core]
      rw [ih]

theorem gAssistantParts_lookup (jl : String → Option Json) (tcs : List MsgToolCall)
    (tid : String) :
    ∀ (fns : List (String × String)) r, (∀ tc ∈ tcs, tc.id ≠ tid) →
      lookupAssoc fns tid = none → gAssistantParts jl fns tcs = .ok r →
      lookupAssoc r.2 tid = none := by
  induction tcs with
  | nil =>
    intro fns r _ hf hok
    simp only [gAssistantParts] at hok
    cases hok
    exact hf
  | cons tc rest ih =>
    intro fns r hnot hf hok
    simp only [gAssistantParts] at hok
    cases hd : decodeArgs jl tc.function.arguments with
    | error e => rw [hd] at hok; cases hok
    | ok j =>
      rw [hd] at hok
      cases hp : gAssistantParts jl ((tc.id, tc.function.name) :: fns) rest with
      | error e => rw [hp] at hok; cases hok
      | ok p =>
        rw [hp] at hok
        cases hok
        have hid : tc.id ≠ tid := hnot tc (List.mem_cons_self _ _)
        have hf2 : lookupAssoc ((tc.id, tc.function.name) :: fns) tid = none := by
          simp only [lookupAssoc, if_neg hid]
          exact hf
        exact ih _ p (fun x hx => hnot x (List.mem_cons_of_mem _ hx)) hf2 hp

theorem g_convert_core_names (jl : String → Option Json) (xs : List Msg) (tid : String) :
    ∀ (fns : List (String × String)) r,
      (∀ m ∈ xs, ∀ tc ∈ m.toolCallsOf, tc.id ≠ tid) →
      lookupAssoc fns tid = none → g_convert_core jl fns xs = .ok r →
      lookupAssoc r.2.2 tid = none := by
  induction xs with
  | nil =>
    intro fns r _ hf hok
    simp only [g_convert_core] at hok
    cases hok
    exact hf
  | cons m rest ih =>
    intro fns r hnot hf hok
    have hrest : ∀ m2 ∈ rest, ∀ tc ∈ m2.toolCallsOf, tc.id ≠ tid :=
      fun m2 hm2 => hnot m2 (List.mem_cons_of_mem _ hm2)
    cases m with
    | system c =>
      simp only [g_convert_core] at hok
      cases hr : g_convert_core jl fns rest with
      | error e => rw [hr] at hok; cases hok
      | ok r2 =>
        rw [hr] at hok
        cases hok
        exact ih _ r2 hrest hf hr
    | user c =>
      simp only [g_convert_core] at hok
      cases hr : g_convert_core jl fns rest with
      | error e => rw [hr] at hok; cases hok
      | ok r2 =>
        rw [hr] at hok
        cases hok
        exact ih _ r2 hrest hf hr
    | assistant c tcs =>
      cases hp : gAssistantParts jl fns tcs with
      | error e => simp [g_convert_core, hp] at hok
      | ok p =>
        simp only [g_convert_core, hp] at hok
        cases hr : g_convert_core jl p.2 rest with
        | error e => rw [hr] at hok; cases hok
        | ok r2 =>
          rw [hr] at hok
          cases hok
          have hfp : lookupAssoc p.2 tid = none :=
            gAssistantParts_lookup jl tcs tid fns p
              (by simpa [Msg.toolCallsOf] using hnot (Msg.assistant c tcs) (List.mem_cons_self _ _))
              hf hp
          exact ih _ r2 hrest hfp hr
    | tool t2 c =>
      simp only [g_convert_core] at hok
      cases hr : g_convert_core jl fns rest with
      | error e => rw [hr] at hok; cases hok
      | ok r2 =>
        rw [hr] at hok
        cases hok
        exact ih _ r2 hrest hf hr
    | other =>
      simp only [g_convert_core] at hok
      exact ih _ r hrest hf hok

/-- C7: a canonical tool message whose `tool_call_id` was never recorded
from a prior assistant turn's tool calls is encoded by the Gemini
conversion as one user content with a `function_response` part carrying the
literal function name `"unknown"`, and the conversion continues rather than
failing. -/
theorem C7_gemini_unknown_tool_id (jl : String → Option Json) (pre post : List Msg)
    (tid c : String) (r1 : List String × List GContent × List (String × String))
    (hpre : g_convert_core jl [] pre = .ok r1)
    (hnot : ∀ m ∈ pre, ∀ tc ∈ m.toolCallsOf, tc.id ≠ tid) :
    g_convert_core jl [] (pre ++ Msg.tool tid c :: post) =
      (g_convert_core jl r1.2.2 post).map fun q =>
        (r1.1 ++ q.1,
          r1.2.1 ++ GContent.mk "user" [GPartOut.functionResponse "unknown" (toolOutput jl c)]
            :: q.2.1,
          q.2.2) := by
  have hnone : lookupAssoc r1.2.2 tid = none :=
    g_convert_core_names jl pre tid [] r1 hnot rfl hpre
  rw [g_convert_core_append jl pre [] (Msg.tool tid c :: post), hpre]
  simp only [Except.bind, g_convert_core, hnone, Option.getD_none]
  cases hp : g_convert_core jl r1.2.2 post with
  | error e => simp [Except.map]
  | ok q => simp [Except.map]

/-- C7 witness: a conversation whose assistant turn recorded only
`"call_A"`, followed by a tool result for the unseen `"call_B"`, converts to
a `function_response` named `"unknown"`. -/
theorem C7_gemini_unknown_tool_id_witness :
    g_convert_core jlNull []
        [Msg.assistant (some "checking")
          [MsgToolCall.mk "call_A" (MsgFn.mk "get_quote" (ArgVal.json Json.null))],
          Msg.tool "call_B" "res"] =
      .ok ([],
        [GContent.mk "model" [GPartOut.text "checking", GPartOut.functionCall "get_quote" Json.null],
          GContent.mk "user" [GPartOut.functionResponse "unknown" Json.null]],
        [("call_A", "get_quote")]) := by
  have h := C7_gemini_unknown_tool_id jlNull
    [Msg.assistant (some "checking")
      [MsgToolCall.mk "call_A" (MsgFn.mk "get_quote" (ArgVal.json Json.null))]]
    [] "call_B" "res"
    ([], [GContent.mk "model" [GPartOut.text "checking", GPartOut.functionCall "get_quote" Json.null]],
      [("call_A", "get_quote")])
    (by simp [g_convert_core, gAssistantParts, decodeArgs])
    (by intro m hm tc htc; simp at hm; subst hm; simp [Msg.toolCallsOf] at htc; simp [htc])
  simp only [List.singleton_append] at h
  rw [h]
  simp [g_convert_core, toolOutput, jlNull, Except.map]

theorem aLastNotTool_cons (m : Msg) (rest : List Msg)
    (h : aLastNotTool (m :: rest) = true) : aLastNotTool rest = true := by
  cases rest with
  | nil => rfl
  | cons m2 r2 =>
    simpa [aLastNotTool, List.getLast?_cons_cons] using h

theorem aLastNotTool_tool_ne_nil (tid c : String) (rest : List Msg)
    (h : aLastNotTool (Msg.tool tid c :: rest) = true) : rest ≠ [] := by
  intro he
  subst he
  simp [aLastNotTool, Msg.isTool] at h

theorem a_collect_tools_run (jl : String → Option Json) (ts : List Msg) :
    ∀ (acc : List ABlock) (post : List Msg), (∀ m ∈ ts, m.isTool = true) →
      aHeadNotTool post = true →
      a_collect_tools jl acc (ts ++ post) =
        (a_convert_core jl post).map fun r =>
          (r.1, AMsg.mk "user" (AContent.blocks (acc ++ ts.map toolResultBlock)) :: r.2) := by
  induction ts with
  | nil =>
    intro acc post _ hpost
    cases post with
    | nil => simp [a_collect_tools, a_convert_core, Except.map]
    | cons m rest =>
      cases m with
      | tool tid c => simp [aHeadNotTool, Msg.isTool] at hpost
      | system c => simp [a_collect_tools]
      | user c => simp [a_collect_tools]
      | assistant c tcs => simp [a_collect_tools]
      | other => simp [a_collect_tools]
  | cons t ts2 ih =>
    intro acc post hall hpost
    have ht : t.isTool = true := hall t (List.mem_cons_self _ _)
    cases t with
    | tool tid c =>
      have hts2 : ∀ m ∈ ts2, m.isTool = true := fun m hm => hall m (List.mem_cons_of_mem _ hm)
      simp only [List.cons_append, a_collect_tools]
      rw [ih (acc ++ [ABlock.toolResult tid c]) post hts2 hpost]
      simp [toolResultBlock, List.append_assoc]
    | system c => simp [Msg.isTool] at ht
    | user c => simp [Msg.isTool] at ht
    | assistant c2 tcs => simp [Msg.isTool] at ht
    | other => simp [Msg.isTool] at ht

theorem a_convert_core_append (jl : String → Option Json) : ∀ n : Nat,
    (∀ (acc : List ABlock) (pre suffix : List Msg) (s1 : List String) (m1 : List AMsg),
      pre.length < n → pre ≠ [] → aLastNotTool pre = true →
      a_collect_tools jl acc pre = .ok (s1, m1) →
      a_collect_tools jl acc (pre ++ suffix) =
        (a_convert_core jl suffix).map fun r => (s1 ++ r.1, m1 ++ r.2)) ∧
    (∀ (pre suffix : List Msg) (s1 : List String) (m1 : List AMsg),
      pre.length ≤ n → aLastNotTool pre = true →
      a_convert_core jl pre = .ok (s1, m1) →
      a_convert_core jl (pre ++ suffix) =
        (a_convert_core jl suffix).map fun r => (s1 ++ r.1, m1 ++ r.2)) := by
  intro n
  induction n with
  | zero =>
    constructor
    · intro acc pre suffix s1 m1 hlen
      exact absurd hlen (by omega)
    · intro pre suffix s1 m1 hlen _ hpre
      have hnil : pre = [] := List.eq_nil_of_length_eq_zero (Nat.le_zero.mp hlen)
      subst hnil
      simp only [a_convert_core] at hpre
      cases hpre
      cases hs : a_convert_core jl suffix with
      | error e => simp [hs, Except.map]
      | ok r => simp [hs, Except.map]
  | succ n ih =>
    have hQ : ∀ (acc : List ABlock) (pre suffix : List Msg) (s1 : List String) (m1 : List AMsg),
        pre.length < n + 1 → pre ≠ [] → aLastNotTool pre = true →
        a_collect_tools jl acc pre = .ok (s1, m1) →
        a_collect_tools jl acc (pre ++ suffix) =
          (a_convert_core jl suffix).map fun r => (s1 ++ r.1, m1 ++ r.2) := by
      intro acc pre suffix s1 m1 hlen hne hlast hpre
      cases pre with
      | nil => exact absurd rfl hne
      | cons m rest =>
        cases m with
        | tool tid c =>
          have hrne : rest ≠ [] := aLastNotTool_tool_ne_nil tid c rest hlast
          have hrlast : aLastNotTool rest = true := aLastNotTool_cons _ _ hlast
          simp only [a_collect_tools] at hpre
          simp only [List.cons_append, a_collect_tools]
          exact ih.1 (acc ++ [ABlock.toolResult tid c]) rest suffix s1 m1
            (by simpa using Nat.lt_of_succ_lt_succ hlen) hrne hrlast hpre
        | system c =>
          simp only [a_collect_tools] at hpre
          cases hr : a_convert_core jl (Msg.system c :: rest) with
          | error e => rw [hr] at hpre; cases hpre
          | ok r =>
            rw [hr] at hpre
            cases hpre
            have := ih.2 (Msg.system c :: rest) suffix r.1 r.2
              (by simpa using Nat.lt_succ_iff.mp hlen) hlast (by rw [hr])
            simp only [List.cons_append] at this ⊢
            rw [show a_collect_tools jl acc (Msg.system c :: (rest ++ suffix)) =
                (a_convert_core jl (Msg.system c :: (rest ++ suffix))).map fun r2 =>
                  (r2.1, AMsg.mk "user" (AContent.blocks acc) :: r2.2) from by
              simp [a_collect_tools]]
            rw [this]
            cases hs : a_convert_core jl suffix with
            | error e => simp [Except.map]
            | ok q => simp [Except.map]
        | user c =>
          simp only [a_collect_tools] at hpre
          cases hr : a_convert_core jl (Msg.user c :: rest) with
          | error e => rw [hr] at hpre; cases hpre
          | ok r =>
            rw [hr] at hpre
            cases hpre
            have := ih.2 (Msg.user c :: rest) suffix r.1 r.2
              (by simpa using Nat.lt_succ_iff.mp hlen) hlast (by rw [hr])
            simp only [List.cons_append] at this ⊢
            rw [show a_collect_tools jl acc (Msg.user c :: (rest ++ suffix)) =
                (a_convert_core jl (Msg.user c :: (rest ++ suffix))).map fun r2 =>
                  (r2.1, AMsg.mk "user" (AContent.blocks acc) :: r2.2) from by
              simp [a_collect_tools]]
            rw [this]
            cases hs : a_convert_core jl suffix with
            | error e => simp [Except.map]
            | ok q => simp [Except.map]
        | assistant c tcs =>
          simp only [a_collect_tools] at hpre
          cases hr : a_convert_core jl (Msg.assistant c tcs :: rest) with
          | error e => rw [hr] at hpre; cases hpre
          | ok r =>
            rw [hr] at hpre
            cases hpre
            have := ih.2 (Msg.assistant c tcs :: rest) suffix r.1 r.2
              (by simpa using Nat.lt_succ_iff.mp hlen) hlast (by rw [hr])
            simp only [List.cons_append] at this ⊢
            rw [show a_collect_tools jl acc (Msg.assistant c tcs :: (rest ++ suffix)) =
                (a_convert_core jl (Msg.assistant c tcs :: (rest ++ suffix))).map fun r2 =>
                  (r2.1, AMsg.mk "user" (AContent.blocks acc) :: r2.2) from by
              simp [a_collect_tools]]
            rw [this]
            cases hs : a_convert_core jl suffix with
            | error e => simp [Except.map]
            | ok q => simp [Except.map]
        | other =>
          simp only [a_collect_tools] at hpre
          cases hr : a_convert_core jl (Msg.other :: rest) with
          | error e => rw [hr] at hpre; cases hpre
          | ok r =>
            rw [hr] at hpre
            cases hpre
            have := ih.2 (Msg.other :: rest) suffix r.1 r.2
              (by simpa using Nat.lt_succ_iff.mp hlen) hlast (by rw [hr])
            simp only [List.cons_append] at this ⊢
            rw [show a_collect_tools jl acc (Msg.other :: (rest ++ suffix)) =
                (a_convert_core jl (Msg.other :: (rest ++ suffix))).map fun r2 =>
                  (r2.1, AMsg.mk "user" (AContent.blocks acc) :: r2.2) from by
              simp [a_collect_tools]]
            rw [this]
            cases hs : a_convert_core jl suffix with
            | error e => simp [Except.map]
            | ok q => simp [Except.map]
    refine ⟨hQ, ?_⟩
    intro pre suffix s1 m1 hlen hlast hpre
    cases pre with
    | nil =>
      simp only [a_convert_core] at hpre
      cases hpre
      cases hs : a_convert_core jl suffix with
      | error e => simp [hs, Except.map]
      | ok r => simp [hs, Except.map]
    | cons m rest =>
      have hrlast : aLastNotTool rest = true := aLastNotTool_cons _ _ hlast
      cases m with
      | system c =>
        simp only [a_convert_core] at hpre
        cases hr : a_convert_core jl rest with
        | error e => rw [hr] at hpre; cases hpre
        | ok r =>
          rw [hr] at hpre
          cases hpre
          simp only [List.cons_append, a_convert_core]
          rw [ih.2 rest suffix r.1 r.2 (by simp only [List.length_cons] at hlen; omega) hrlast hr]
          cases hs : a_convert_core jl suffix with
          | error e => simp [Except.map]
          | ok q => simp [Except.map]
      | user c =>
        simp only [a_convert_core] at hpre
        cases hr : a_convert_core jl rest with
        | error e => rw [hr] at hpre; cases hpre
        | ok r =>
          rw [hr] at hpre
          cases hpre
          simp only [List.cons_append, a_convert_core]
          rw [ih.2 rest suffix r.1 r.2 (by simp only [List.length_cons] at hlen; omega) hrlast hr]
          cases hs : a_convert_core jl suffix with
          | error e => simp [Except.map]
          | ok q => simp [Except.map]
      | assistant c tcs =>
        simp only [a_convert_core] at hpre
        cases ht : aToolUseBlocks jl tcs with
        | error e => rw [ht] at hpre; cases hpre
        | ok tb =>
          rw [ht] at hpre
          cases hr : a_convert_core jl rest with
          | error e => rw [hr] at hpre; cases hpre
          | ok r =>
            rw [hr] at hpre
            cases hpre
            simp only [List.cons_append, a_convert_core, ht]
            rw [ih.2 rest suffix r.1 r.2 (by simp only [List.length_cons] at hlen; omega) hrlast hr]
            cases hs : a_convert_core jl suffix with
            | error e => simp [Except.bind, Except.map]
            | ok q => simp [Except.bind, Except.map]
      | tool tid c =>
        have hrne : rest ≠ [] := aLastNotTool_tool_ne_nil tid c rest hlast
        simp only [a_convert_core] at hpre
        simp only [List.cons_append, a_convert_core]
        exact hQ [ABlock.toolResult tid c] rest suffix s1 m1
          (by simp only [List.length_cons] at hlen; omega) hrne hrlast hpre
      | other =>
        simp only [a_convert_core] at hpre
        simp only [List.cons_append, a_convert_core]
        exact ih.2 rest suffix s1 m1 (by simp only [List.length_cons] at hlen; omega) hrlast hpre

/-- C5: in the Anthropic conversion, every maximal run of consecutive
canonical tool messages is coalesced into exactly one user-role message
whose content is the ordered sequence of `tool_result` blocks (each
carrying its message's `tool_call_id` and content, in the original order);
no separate message per tool result is emitted. -/
theorem C5_anthropic_coalescing (jl : String → Option Json) (pre run post : List Msg)
    (s1 : List String) (m1 : List AMsg)
    (hpre : a_convert_core jl pre = .ok (s1, m1))
    (hlast : aLastNotTool pre = true)
    (hne : run ≠ [])
    (hall : ∀ m ∈ run, m.isTool = true)
    (hpost : aHeadNotTool post = true) :
    a_convert_core jl (pre ++ run ++ post) =
      (a_convert_core jl post).map fun r =>
        (s1 ++ r.1, m1 ++ AMsg.mk "user" (AContent.blocks (run.map toolResultBlock)) :: r.2) := by
  have hrunpost : a_convert_core jl (run ++ post) =
      (a_convert_core jl post).map fun r =>
        (r.1, AMsg.mk "user" (AContent.blocks (run.map toolResultBlock)) :: r.2) := by
    cases run with
    | nil => exact absurd rfl hne
    | cons t ts =>
      have ht : t.isTool = true := hall t (List.mem_cons_self _ _)
      cases t with
      | tool tid c =>
        simp only [List.cons_append, a_convert_core]
        rw [a_collect_tools_run jl ts [ABlock.toolResult tid c] post
          (fun m hm => hall m (List.mem_cons_of_mem _ hm)) hpost]
        simp [toolResultBlock]
      | system c => simp [Msg.isTool] at ht
      | user c => simp [Msg.isTool] at ht
      | assistant c2 tcs => simp [Msg.isTool] at ht
      | other => simp [Msg.isTool] at ht
  rw [List.append_assoc]
  rw [(a_convert_core_append jl (pre.length)).2 pre (run ++ post) s1 m1 le_rfl hlast hpre]
  rw [hrunpost]
  cases hs : a_convert_core jl post with
  | error e => simp [Except.map]
  | ok q => simp [Except.map]

/-- C5 witness: two consecutive tool messages between two user turns
coalesce into a single user message holding both `tool_result` blocks in
order. -/
theorem C5_anthropic_coalescing_witness :
    a_convert_core jlNull
        [Msg.user "hi", Msg.tool "c1" "r1", Msg.tool "c2" "r2", Msg.user "next"] =
      .ok ([], [AMsg.mk "user" (AContent.str "hi"),
        AMsg.mk "user" (AContent.blocks
          [ABlock.toolResult "c1" "r1", ABlock.toolResult "c2" "r2"]),
        AMsg.mk "user" (AContent.str "next")]) := by
  have h := C5_anthropic_coalescing jlNull [Msg.user "hi"]
    [Msg.tool "c1" "r1", Msg.tool "c2" "r2"] [Msg.user "next"]
    [] [AMsg.mk "user" (AContent.str "hi")]
    (by simp [a_convert_core, Except.map]) (by decide) (by simp) (by decide) (by decide)
  simp only [List.cons_append, List.nil_append, List.singleton_append] at h
  rw [h]
  simp [a_convert_core, Except.map, toolResultBlock]

theorem decodeArgs_error (jl : String → Option Json) (a : ArgVal) (s : String)
    (h : decodeArgs jl a = .error s) : a = ArgVal.str s ∧ jl s = none := by
  cases a with
  | str s2 =>
    cases hj : jl s2 with
    | some j => simp [decodeArgs, hj] at h
    | none =>
      simp only [decodeArgs, hj] at h
      cases h
      exact ⟨rfl, hj⟩
  | json j => simp [decodeArgs] at h

theorem decodeArgs_bad (jl : String → Option Json) (s : String) (hjs : jl s = none) :
    decodeArgs jl (ArgVal.str s) = .error s := by
  simp [decodeArgs, hjs]

theorem hasBadArgs_cons (jl : String → Option Json) (m : Msg) (rest : List Msg) :
    hasBadArgs jl (m :: rest) ↔
      (∃ tc ∈ m.toolCallsOf, ∃ s, tc.function.arguments = ArgVal.str s ∧ jl s = none) ∨
      hasBadArgs jl rest := by
  constructor
  · rintro ⟨m2, hm2, tc, htc, s, hargs, hjs⟩
    rcases List.mem_cons.mp hm2 with h | h
    · subst h
      exact Or.inl ⟨tc, htc, s, hargs, hjs⟩
    · exact Or.inr ⟨m2, h, tc, htc, s, hargs, hjs⟩
  · rintro (⟨tc, htc, s, hargs, hjs⟩ | ⟨m2, hm2, tc, htc, s, hargs, hjs⟩)
    · exact ⟨m, List.mem_cons_self _ _, tc, htc, s, hargs, hjs⟩
    · exact ⟨m2, List.mem_cons_of_mem _ hm2, tc, htc, s, hargs, hjs⟩

theorem aToolUseBlocks_error (jl : String → Option Json) (tcs : List MsgToolCall) :
    ∀ e, aToolUseBlocks jl tcs = .error e → jl e = none := by
  induction tcs with
  | nil => intro e h; simp [aToolUseBlocks] at h
  | cons tc rest ih =>
    intro e h
    cases hd : decodeArgs jl tc.function.arguments with
    | error e2 =>
      simp only [aToolUseBlocks, hd] at h
      cases h
      exact (decodeArgs_error jl _ _ hd).2
    | ok j =>
      simp only [aToolUseBlocks, hd] at h
      cases hr : aToolUseBlocks jl rest with
      | error e2 =>
        rw [hr] at h
        cases h
        exact ih _ hr
      | ok bs => rw [hr] at h; cases h

theorem aToolUseBlocks_bad (jl : String → Option Json) (tcs : List MsgToolCall)
    (hbad : ∃ tc ∈ tcs, ∃ s, tc.function.arguments = ArgVal.str s ∧ jl s = none) :
    ∃ e, aToolUseBlocks jl tcs = .error e ∧ jl e = none := by
  induction tcs with
  | nil =>
    obtain ⟨tc, htc, _⟩ := hbad
    simp at htc
  | cons tc rest ih =>
    cases hd : decodeArgs jl tc.function.arguments with
    | error e => exact ⟨e, by simp [aToolUseBlocks, hd], (decodeArgs_error jl _ _ hd).2⟩
    | ok j =>
      obtain ⟨tc2, htc2, s, hargs, hjs⟩ := hbad
      rcases List.mem_cons.mp htc2 with h | h
      · subst h
        rw [hargs, decodeArgs_bad jl s hjs] at hd
        cases hd
      · obtain ⟨e, he, hje⟩ := ih ⟨tc2, h, s, hargs, hjs⟩
        exact ⟨e, by simp [aToolUseBlocks, hd, he], hje⟩

theorem a_convert_core_bad (jl : String → Option Json) : ∀ n : Nat,
    (∀ (acc : List ABlock) (msgs : List Msg), msgs.length < n → hasBadArgs jl msgs →
      ∃ e, a_collect_tools jl acc msgs = .error e ∧ jl e = none) ∧
    (∀ msgs : List Msg, msgs.length ≤ n → hasBadArgs jl msgs →
      ∃ e, a_convert_core jl msgs = .error e ∧ jl e = none) := by
  intro n
  induction n with
  | zero =>
    constructor
    · intro acc msgs hlen
      exact absurd hlen (by omega)
    · intro msgs hlen hbad
      have hnil : msgs = [] := List.eq_nil_of_length_eq_zero (Nat.le_zero.mp hlen)
      subst hnil
      obtain ⟨m, hm, _⟩ := hbad
      simp at hm
  | succ n ih =>
    have hQ : ∀ (acc : List ABlock) (msgs : List Msg), msgs.length < n + 1 →
        hasBadArgs jl msgs →
        ∃ e, a_collect_tools jl acc msgs = .error e ∧ jl e = none := by
      intro acc msgs hlen hbad
      cases msgs with
      | nil =>
        obtain ⟨m, hm, _⟩ := hbad
        simp at hm
      | cons m rest =>
        cases m with
        | tool tid c =>
          have hr : hasBadArgs jl rest := by
            rcases (hasBadArgs_cons jl _ rest).mp hbad with hh | hr
            · simp [Msg.toolCallsOf] at hh
            · exact hr
          obtain ⟨e, he, hje⟩ := ih.1 (acc ++ [ABlock.toolResult tid c]) rest
            (by simp only [List.length_cons] at hlen; omega) hr
          exact ⟨e, by simp [a_collect_tools, he], hje⟩
        | system c =>
          obtain ⟨e, he, hje⟩ := ih.2 (Msg.system c :: rest)
            (by simp only [List.length_cons] at hlen ⊢; omega) hbad
          exact ⟨e, by simp [a_collect_tools, he, Except.map], hje⟩
        | user c =>
          obtain ⟨e, he, hje⟩ := ih.2 (Msg.user c :: rest)
            (by simp only [List.length_cons] at hlen ⊢; omega) hbad
          exact ⟨e, by simp [a_collect_tools, he, Except.map], hje⟩
        | assistant c tcs =>
          obtain ⟨e, he, hje⟩ := ih.2 (Msg.assistant c tcs :: rest)
            (by simp only [List.length_cons] at hlen ⊢; omega) hbad
          exact ⟨e, by simp [a_collect_tools, he, Except.map], hje⟩
        | other =>
          obtain ⟨e, he, hje⟩ := ih.2 (Msg.other :: rest)
            (by simp only [List.length_cons] at hlen ⊢; omega) hbad
          exact ⟨e, by simp [a_collect_tools, he, Except.map], hje⟩
    refine ⟨hQ, ?_⟩
    intro msgs hlen hbad
    cases msgs with
    | nil =>
      obtain ⟨m, hm, _⟩ := hbad
      simp at hm
    | cons m rest =>
      have hlr : rest.length ≤ n := by simp only [List.length_cons] at hlen; omega
      rcases (hasBadArgs_cons jl m rest).mp hbad with hh | hr
      · cases m with
        | assistant c tcs =>
          simp only [Msg.toolCallsOf] at hh
          obtain ⟨e, he, hje⟩ := aToolUseBlocks_bad jl tcs hh
          exact ⟨e, by simp [a_convert_core, he, Except.bind], hje⟩
        | system c => simp [Msg.toolCallsOf] at hh
        | user c => simp [Msg.toolCallsOf] at hh
        | tool tid c => simp [Msg.toolCallsOf] at hh
        | other => simp [Msg.toolCallsOf] at hh
      · obtain ⟨e, he, hje⟩ := ih.2 rest hlr hr
        cases m with
        | system c => exact ⟨e, by simp [a_convert_core, he, Except.map], hje⟩
        | user c => exact ⟨e, by simp [a_convert_core, he, Except.map], hje⟩
        | assistant c tcs =>
          cases ht : aToolUseBlocks jl tcs with
          | error e2 =>
            exact ⟨e2, by simp [a_convert_core, ht, Except.bind],
              aToolUseBlocks_error jl tcs e2 ht⟩
          | ok tb =>
            exact ⟨e, by simp [a_convert_core, ht, he, Except.bind, Except.map], hje⟩
        | tool tid c =>
          obtain ⟨e2, he2, hje2⟩ := hQ [ABlock.toolResult tid c] rest (by omega) hr
          exact ⟨e2, by simp [a_convert_core, he2], hje2⟩
        | other => exact ⟨e, by simp [a_convert_core, he], hje⟩



theorem gAssistantParts_error (jl : String → Option Json) (tcs : List MsgToolCall) :
    ∀ (fns : List (String × String)) e, gAssistantParts jl fns tcs = .error e →
      jl e = none := by
  induction tcs with
  | nil => intro fns e h; simp [gAssistantParts] at h
  | cons tc rest ih =>
    intro fns e h
    cases hd : decodeArgs jl tc.function.arguments with
    | error e2 =>
      simp only [gAssistantParts, hd] at h
      cases h
      exact (decodeArgs_error jl _ _ hd).2
    | ok j =>
      simp only [gAssistantParts, hd] at h
      cases hr : gAssistantParts jl ((tc.id, tc.function.name) :: fns) rest with
      | error e2 =>
        rw [hr] at h
        cases h
        exact ih _ _ hr
      | ok p => rw [hr] at h; cases h

theorem gAssistantParts_bad (jl : String → Option Json) (tcs : List MsgToolCall)
    (hbad : ∃ tc ∈ tcs, ∃ s, tc.function.arguments = ArgVal.str s ∧ jl s = none) :
    ∀ fns : List (String × String),
      ∃ e, gAssistantParts jl fns tcs = .error e ∧ jl e = none := by
  induction tcs with
  | nil =>
    obtain ⟨tc, htc, _⟩ := hbad
    simp at htc
  | cons tc rest ih =>
    intro fns
    cases hd : decodeArgs jl tc.function.arguments with
    | error e => exact ⟨e, by simp [gAssistantParts, hd], (decodeArgs_error jl _ _ hd).2⟩
    | ok j =>
      obtain ⟨tc2, htc2, s, hargs, hjs⟩ := hbad
      rcases List.mem_cons.mp htc2 with h | h
      · subst h
        rw [hargs, decodeArgs_bad jl s hjs] at hd
        cases hd
      · obtain ⟨e, he, hje⟩ := ih ⟨tc2, h, s, hargs, hjs⟩ ((tc.id, tc.function.name) :: fns)
        exact ⟨e, by simp [gAssistantParts, hd, he], hje⟩

theorem g_convert_core_bad (jl : String → Option Json) (msgs : List Msg) :
    ∀ fns : List (String × String), hasBadArgs jl msgs →
      ∃ e, g_convert_core jl fns msgs = .error e ∧ jl e = none := by
  induction msgs with
  | nil =>
    intro fns hbad
    obtain ⟨m, hm, _⟩ := hbad
    simp at hm
  | cons m rest ih =>
    intro fns hbad
    rcases (hasBadArgs_cons jl m rest).mp hbad with hh | hr
    · cases m with
      | assistant c tcs =>
        simp only [Msg.toolCallsOf] at hh
        obtain ⟨e, he, hje⟩ := gAssistantParts_bad jl tcs hh fns
        exact ⟨e, by simp [g_convert_core, he], hje⟩
      | system c => simp [Msg.toolCallsOf] at hh
      | user c => simp [Msg.toolCallsOf] at hh
      | tool tid c => simp [Msg.toolCallsOf] at hh
      | other => simp [Msg.toolCallsOf] at hh
    · cases m with
      | system c =>
        obtain ⟨e, he, hje⟩ := ih fns hr
        exact ⟨e, by simp [g_convert_core, he, Except.map], hje⟩
      | user c =>
        obtain ⟨e, he, hje⟩ := ih fns hr
        exact ⟨e, by simp [g_convert_core, he, Except.map], hje⟩
      | assistant c tcs =>
        cases hp : gAssistantParts jl fns tcs with
        | error e =>
          exact ⟨e, by simp [g_convert_core, hp], gAssistantParts_error jl tcs fns e hp⟩
        | ok p =>
          obtain ⟨e, he, hje⟩ := ih p.2 hr
          exact ⟨e, by simp [g_convert_core, hp, he, Except.map], hje⟩
      | tool tid c =>
        obtain ⟨e, he, hje⟩ := ih fns hr
        exact ⟨e, by simp [g_convert_core, he, Except.map], hje⟩
      | other =>
        obtain ⟨e, he, hje⟩ := ih fns hr
        exact ⟨e, by simp [g_convert_core, he], hje⟩

theorem bToolUses_error (jl : String → Option Json) (tcs : List MsgToolCall) :
    ∀ e, bToolUses jl tcs = .error e → jl e = none := by
  induction tcs with
  | nil => intro e h; simp [bToolUses] at h
  | cons tc rest ih =>
    intro e h
    cases hd : decodeArgs jl tc.function.arguments with
    | error e2 =>
      simp only [bToolUses, hd] at h
      cases h
      exact (decodeArgs_error jl _ _ hd).2
    | ok j =>
      simp only [bToolUses, hd] at h
      cases hr : bToolUses jl rest with
      | error e2 =>
        rw [hr] at h
        cases h
        exact ih _ hr
      | ok bs => rw [hr] at h; cases h

theorem bToolUses_bad (jl : String → Option Json) (tcs : List MsgToolCall)
    (hbad : ∃ tc ∈ tcs, ∃ s, tc.function.arguments = ArgVal.str s ∧ jl s = none) :
    ∃ e, bToolUses jl tcs = .error e ∧ jl e = none := by
  induction tcs with
  | nil =>
    obtain ⟨tc, htc, _⟩ := hbad
    simp at htc
  | cons tc rest ih =>
    cases hd : decodeArgs jl tc.function.arguments with
    | error e => exact ⟨e, by simp [bToolUses, hd], (decodeArgs_error jl _ _ hd).2⟩
    | ok j =>
      obtain ⟨tc2, htc2, s, hargs, hjs⟩ := hbad
      rcases List.mem_cons.mp htc2 with h | h
      · subst h
        rw [hargs, decodeArgs_bad jl s hjs] at hd
        cases hd
      · obtain ⟨e, he, hje⟩ := ih ⟨tc2, h, s, hargs, hjs⟩
        exact ⟨e, by simp [bToolUses, hd, he], hje⟩

theorem b_convert_core_bad (jl : String → Option Json) (msgs : List Msg)
    (hbad : hasBadArgs jl msgs) :
    ∃ e, b_convert_core jl msgs = .error e ∧ jl e = none := by
  induction msgs with
  | nil =>
    obtain ⟨m, hm, _⟩ := hbad
    simp at hm
  | cons m rest ih =>
    rcases (hasBadArgs_cons jl m rest).mp hbad with hh | hr
    · cases m with
      | assistant c tcs =>
        simp only [Msg.toolCallsOf] at hh
        obtain ⟨e, he, hje⟩ := bToolUses_bad jl tcs hh
        exact ⟨e, by simp [b_convert_core, he], hje⟩
      | system c => simp [Msg.toolCallsOf] at hh
      | user c => simp [Msg.toolCallsOf] at hh
      | tool tid c => simp [Msg.toolCallsOf] at hh
      | other => simp [Msg.toolCallsOf] at hh
    · cases m with
      | system c =>
        obtain ⟨e, he, hje⟩ := ih hr
        exact ⟨e, by simp [b_convert_core, he, Except.map], hje⟩
      | user c =>
        obtain ⟨e, he, hje⟩ := ih hr
        exact ⟨e, by simp [b_convert_core, he, Except.map], hje⟩
      | assistant c tcs =>
        cases ht : bToolUses jl tcs with
        | error e =>
          exact ⟨e, by simp [b_convert_core, ht], bToolUses_error jl tcs e ht⟩
        | ok tb =>
          obtain ⟨e, he, hje⟩ := ih hr
          exact ⟨e, by simp [b_convert_core, ht, he, Except.map], hje⟩
      | tool tid c =>
        obtain ⟨e, he, hje⟩ := ih hr
        exact ⟨e, by simp [b_convert_core, he, Except.map], hje⟩
      | other =>
        obtain ⟨e, he, hje⟩ := ih hr
        exact ⟨e, by simp [b_convert_core, he], hje⟩

/-- C10: for the Anthropic, Gemini and Bedrock adapters, if some assistant
message carries a tool call whose `arguments` field is a string `json.loads`
cannot decode, `complete()` surfaces the raw JSON-decoding exception — not a
wrapped `LLMError` — because message conversion runs before the `try/except`
that wraps only the vendor call (the vendor oracle here is arbitrary and
never consulted). -/
theorem C10_invalid_args_raw_json_error (jl : String → Option Json) (jd : Json → String)
    (msgs : List Msg) (hbad : hasBadArgs jl msgs)
    (va : String → List AMsg → Except String AResp)
    (vg : String → List GContent → Except String GResp)
    (vb : List String → List BMsg → Except String BResp) :
    (∃ s, jl s = none ∧ anthropic_complete jl jd va msgs = .error (.jsonDecode s)) ∧
    (∃ s, jl s = none ∧ gemini_complete jl jd vg msgs = .error (.jsonDecode s)) ∧
    (∃ s, jl s = none ∧ bedrock_complete jl jd vb msgs = .error (.jsonDecode s)) := by
  refine ⟨?_, ?_, ?_⟩
  · obtain ⟨e, he, hje⟩ := (a_convert_core_bad jl msgs.length).2 msgs le_rfl hbad
    exact ⟨e, hje, by simp [anthropic_complete, a_convert_messages, he, Except.map]⟩
  · obtain ⟨e, he, hje⟩ := g_convert_core_bad jl msgs [] hbad
    exact ⟨e, hje, by simp [gemini_complete, g_convert_messages, he, Except.map]⟩
  · obtain ⟨e, he, hje⟩ := b_convert_core_bad jl msgs hbad
    exact ⟨e, hje, by simp [bedrock_complete, b_convert_messages, he, Except.map]⟩

/-- C10 witness: a conversation with one assistant tool call whose arguments
string fails to decode (under a `json.loads` model that rejects every
string); all three completes surface a raw JSON-decode error while the
vendor oracles are never consulted. -/
theorem C10_invalid_args_raw_json_error_witness :
    (∃ s, jlNone s = none ∧
      anthropic_complete jlNone jdConst (fun _ _ => .error "boom")
          [Msg.assistant none [MsgToolCall.mk "c1" (MsgFn.mk "f" (ArgVal.str "oops"))]] =
        .error (.jsonDecode s)) ∧
    (∃ s, jlNone s = none ∧
      gemini_complete jlNone jdConst (fun _ _ => .error "boom")
          [Msg.assistant none [MsgToolCall.mk "c1" (MsgFn.mk "f" (ArgVal.str "oops"))]] =
        .error (.jsonDecode s)) ∧
    (∃ s, jlNone s = none ∧
      bedrock_complete jlNone jdConst (fun _ _ => .error "boom")
          [Msg.assistant none [MsgToolCall.mk "c1" (MsgFn.mk "f" (ArgVal.str "oops"))]] =
        .error (.jsonDecode s)) :=
  C10_invalid_args_raw_json_error jlNone jdConst
    [Msg.assistant none [MsgToolCall.mk "c1" (MsgFn.mk "f" (ArgVal.str "oops"))]]
    ⟨Msg.assistant none [MsgToolCall.mk "c1" (MsgFn.mk "f" (ArgVal.str "oops"))],
      List.mem_cons_self _ _,
      MsgToolCall.mk "c1" (MsgFn.mk "f" (ArgVal.str "oops")),
      List.mem_cons_self _ _, "oops", rfl, rfl⟩
    (fun _ _ => .error "boom") (fun _ _ => .error "boom") (fun _ _ => .error "boom")

end AlphaClaw
